import Mathlib

/-!
Verification of the B+tree index implementation in `src/index/b_plus_tree.cpp`
(namespace `cmudb`).  The tree-level routines (`GetValue`, `Insert`, `Remove`,
`AdjustRoot`, `CoalesceOrRedistribute`, `GetLeafPage`, ...) are embedded
shallowly as Lean functions over an explicit state; the page-node primitives
(`BPlusTreeLeafPage`, `BPlusTreeInternalPage`, the header page and the buffer
pool), which live outside the sources at hand, are modelled from the
specification and marked as such in their doc comments.
-/

set_option autoImplicit false

namespace BPTree

/-- Page identifiers: `page_id_t` is a signed integer in the source. -/
abbrev PageId := Int

/-- Sentinel: "`INVALID_PAGE_ID` (e.g., −1) denotes "no such page"". -/
def INVALID_PAGE_ID : PageId := -1

/-- Keys: `GenericKey` compared by a total-order comparator; modelled as `Int`. -/
abbrev Key := Int

/-- Values: `RID` is an opaque fixed-size record identifier; modelled as `Int`. -/
abbrev RID := Int

/-- Modelled from the spec: a leaf page (`BPlusTreeLeafPage`, not among the
sources).  Header fields `parent_page_id`, `max_size`, `next_leaf_page_id`;
payload is the ordered array of `(key, value)` entries. -/
structure LeafNode where
  parentPageId : PageId
  maxSize : Nat
  entries : List (Key × RID)
  nextPageId : PageId
deriving DecidableEq, Repr

/-- Modelled from the spec: an internal page (`BPlusTreeInternalPage`, not among
the sources).  Entry `i` holds `(key_i, child_i)`; `key_0` is unused. -/
structure InternalNode where
  parentPageId : PageId
  maxSize : Nat
  entries : List (Key × PageId)
deriving DecidableEq, Repr

/-- A page is either a leaf or an internal node (`page_kind` tag). -/
inductive Node where
  | leaf : LeafNode → Node
  | internal : InternalNode → Node
deriving DecidableEq, Repr

namespace Node

/-- `IsLeafPage`. -/
def isLeafPage : Node → Bool
  | .leaf _ => true
  | .internal _ => false

/-- `GetParentPageId`. -/
def parentPageId : Node → PageId
  | .leaf l => l.parentPageId
  | .internal n => n.parentPageId

/-- `GetSize`: number of entries currently stored. -/
def size : Node → Nat
  | .leaf l => l.entries.length
  | .internal n => n.entries.length

/-- `GetMaxSize`. -/
def maxSize : Node → Nat
  | .leaf l => l.maxSize
  | .internal n => n.maxSize

/-- `IsRootPage`: parent is `INVALID_PAGE_ID`. -/
def isRootPage (n : Node) : Bool := n.parentPageId == INVALID_PAGE_ID

/-- Modelled from the spec: `GetMinSize` (`BPlusTreePage`, not among the
sources).  "`min_size = ⌈max_size/2⌉` (leaf: `⌈L/2⌉`; internal: `⌈M/2⌉`)" and
"The root is exempt from `min_size`": a root leaf underflows only when it is
empty ("If root is a leaf with size 0: tree becomes empty") and a root internal
node only when a single child remains ("If root is internal with exactly 1
child: promote that child"). -/
def minSize (n : Node) : Nat :=
  if n.parentPageId = INVALID_PAGE_ID then
    if n.isLeafPage then 1 else 2
  else (n.maxSize + 1) / 2

/-- `SetParentPageId`. -/
def setParentPageId : Node → PageId → Node
  | .leaf l, p => .leaf { l with parentPageId := p }
  | .internal n, p => .internal { n with parentPageId := p }

end Node

/-- The pool of pages visible to the tree: an association of page ids to page
contents.  The buffer pool owns the storage; the tree reads and writes pages
through `fetch_page` / `new_page` / `delete_page`. -/
abbrev Pages := List (PageId × Node)

/-- `FetchPage` followed by the `reinterpret_cast` of the page data: look up a
page id in the pool. -/
def getPage (pages : Pages) (pid : PageId) : Option Node :=
  (pages.find? (fun p => p.1 == pid)).map Prod.snd

/-- Writing back a page under its id (the C++ code mutates the pinned page in
place; the functional model replaces the stored node). -/
def setPage (pages : Pages) (pid : PageId) (n : Node) : Pages :=
  pages.map (fun p => if p.1 == pid then (pid, n) else p)

/-- `NewPage`: the buffer pool hands out a fresh page; the model appends it. -/
def addPage (pages : Pages) (pid : PageId) (n : Node) : Pages :=
  pages ++ [(pid, n)]

/-- `DeletePage`: the page is removed from the pool. -/
def delPage (pages : Pages) (pid : PageId) : Pages :=
  pages.filter (fun p => ¬ p.1 = pid)

/-- Modelled from the spec: `HeaderPage::InsertRecord` (not among the sources)
"creates a new record `<index_name, root_page_id>` in header_page". -/
def insertRecord (recs : List (String × PageId)) (name : String) (v : PageId) :
    List (String × PageId) :=
  recs ++ [(name, v)]

/-- Modelled from the spec: `HeaderPage::UpdateRecord` (not among the sources)
"update root_page_id in header_page" for the existing record of this index. -/
def updateRecord (recs : List (String × PageId)) (name : String) (v : PageId) :
    List (String × PageId) :=
  recs.map (fun r => if r.1 == name then (name, v) else r)

/-- The shallow state of a `BPlusTree`: the page pool, the (atomic)
`root_page_id_`, the allocator cursor for fresh page ids, the header page
records, the index name, and the two `max_size` configuration constants fixed
at page initialisation. -/
structure BPTState where
  indexName : String
  pages : Pages
  rootPageId : PageId
  nextPageId : PageId
  header : List (String × PageId)
  leafMax : Nat
  internalMax : Nat
deriving DecidableEq, Repr

/-- `IsEmpty`: `root_page_id_ == INVALID_PAGE_ID`. -/
def IsEmpty (st : BPTState) : Bool := st.rootPageId == INVALID_PAGE_ID

/-- `UpdateRootPageId`: fetch the header page; `InsertRecord` when
`insert_record` is set, otherwise `UpdateRecord`; then unpin. -/
def UpdateRootPageId (st : BPTState) (insert_record : Bool) : BPTState :=
  if insert_record then
    { st with header := insertRecord st.header st.indexName st.rootPageId }
  else
    { st with header := updateRecord st.header st.indexName st.rootPageId }

/-- A single-page tree whose root is a leaf holding one entry. -/
def oneLeafState : BPTState :=
  { indexName := "idx",
    pages := [(2, .leaf { parentPageId := INVALID_PAGE_ID, maxSize := 4,
                          entries := [(1, 10)], nextPageId := INVALID_PAGE_ID })],
    rootPageId := 2,
    nextPageId := 3,
    header := [("idx", 2)],
    leafMax := 4,
    internalMax := 5 }

/-- `InternalNode.valueAt`: `ValueAt(i)`, the child id of entry `i`
(modelled from the spec; out-of-range reads yield the invalid id). -/
def InternalNode.valueAt (ip : InternalNode) (i : Nat) : PageId :=
  ((ip.entries.get? i).map Prod.snd).getD INVALID_PAGE_ID

/-- `AdjustRoot` (`b_plus_tree.cpp:436`).  Case 2: a root leaf below its
minimum size empties the tree.  Case 1: a root internal node with exactly one
child promotes that child.  `none` models a failed `assert` or a missing page
(undefined behaviour in the original). -/
def AdjustRoot (st : BPTState) (rootId : PageId) : Option (BPTState × Bool) :=
  match getPage st.pages rootId with
  | none => none
  | some n =>
    if ¬ n.isRootPage then none
    else if n.isLeafPage ∧ n.size < n.minSize then
      some (UpdateRootPageId { st with rootPageId := INVALID_PAGE_ID } false, true)
    else
      match n with
      | .internal ip =>
        if ip.entries.length = 1 then
          let childId := ip.valueAt 0
          match getPage st.pages childId with
          | none => none
          | some child =>
            let st :=
              { st with
                pages := setPage st.pages childId (child.setParentPageId INVALID_PAGE_ID),
                rootPageId := childId }
            some (UpdateRootPageId st false, true)
        else some (st, false)
      | .leaf _ => some (st, false)

/-- C1: `AdjustRoot` called on a root leaf empties the tree (root id set to
`INVALID_PAGE_ID` and persisted through the header page) and returns `true`
exactly when the leaf holds no entries; a root leaf with at least one entry is
left untouched and never deleted. -/
theorem adjustRoot_empties_tree_iff_size_zero
    (st : BPTState) (rootId : PageId) (l : LeafNode)
    (hget : getPage st.pages rootId = some (.leaf l))
    (hroot : l.parentPageId = INVALID_PAGE_ID) :
    (AdjustRoot st rootId =
        some (UpdateRootPageId { st with rootPageId := INVALID_PAGE_ID } false, true)
      ↔ l.entries.length = 0) ∧
    ((AdjustRoot st rootId).map Prod.snd = some true ↔ l.entries.length = 0) ∧
    (l.entries.length ≠ 0 → AdjustRoot st rootId = some (st, false)) := by
  have hmin : (Node.leaf l).minSize = 1 := by
    simp [Node.minSize, Node.parentPageId, hroot, Node.isLeafPage]
  have hrt : ((Node.leaf l).isRootPage = true) := by
    simp [Node.isRootPage, Node.parentPageId, hroot, INVALID_PAGE_ID]
  have hzero : l.entries.length = 0 →
      AdjustRoot st rootId =
        some (UpdateRootPageId { st with rootPageId := INVALID_PAGE_ID } false, true) := by
    intro h0
    simp only [AdjustRoot, hget, hrt, not_true_eq_false, if_false]
    rw [if_pos]
    simp only [Node.isLeafPage, Node.size, hmin, true_and]
    omega
  have hnonzero : l.entries.length ≠ 0 → AdjustRoot st rootId = some (st, false) := by
    intro hne
    simp only [AdjustRoot, hget, hrt, not_true_eq_false, if_false]
    rw [if_neg]
    simp only [Node.isLeafPage, Node.size, hmin, true_and]
    omega
  rcases Nat.eq_zero_or_pos l.entries.length with h0 | hpos
  · refine ⟨⟨fun _ => h0, fun _ => hzero h0⟩, ⟨fun _ => h0, fun _ => ?_⟩, fun hne => absurd h0 hne⟩
    · rw [hzero h0]
      rfl
  · have hne : l.entries.length ≠ 0 := Nat.pos_iff_ne_zero.mp hpos
    refine ⟨⟨fun h => ?_, fun h0 => absurd h0 hne⟩,
            ⟨fun h => ?_, fun h0 => absurd h0 hne⟩, fun _ => hnonzero hne⟩
    · rw [hnonzero hne] at h
      have := (Option.some.injEq _ _).mp h
      exact absurd (congrArg Prod.snd this) (by simp)
    · rw [hnonzero hne] at h
      simp at h

/-! ## Search: `GetLeafPage` and `GetValue` -/

/-- Modelled from the spec: `BPlusTreeLeafPage::Lookup` — "binary search by
comparator"; returns the value stored under the key, if present. -/
def LeafNode.lookup (l : LeafNode) (k : Key) : Option RID :=
  (l.entries.find? (fun e => e.1 == k)).map Prod.snd

/-- Modelled from the spec: `BPlusTreeLeafPage::KeyIndex` — the "first index
with `key_i ≥ k` (insertion position)". -/
def LeafNode.keyIndex (l : LeafNode) (k : Key) : Nat :=
  l.entries.findIdx (fun e => k ≤ e.1)

/-- Scan for the greatest child whose separator key is below the search key. -/
def internalLookupAux (k : Key) : PageId → List (Key × PageId) → PageId
  | acc, [] => acc
  | acc, (ki, ci) :: rest => if ki < k then internalLookupAux k ci rest else acc

/-- Modelled from the spec: `BPlusTreeInternalPage::Lookup` — returns the
child responsible for the search key; `key_0` is unused.  The spec notes the
"range-boundary comparisons" follow the separator convention; this
implementation propagates the *largest key of the left half* as separator after
a leaf split, so a key equal to `key_i` still belongs to `child_{i-1}` and the
boundary comparison is strict: the greatest `child_i` with `i = 0` or
`key_i < k`. -/
def InternalNode.lookup (ip : InternalNode) (k : Key) : PageId :=
  match ip.entries with
  | [] => INVALID_PAGE_ID
  | e0 :: rest => internalLookupAux k e0.2 rest

/-- The safety test of the crabbing release rule (`b_plus_tree.cpp:638-656`):
mode 0 (search) releases unconditionally; mode 1 (insert) when the child is not
full (`GetMaxSize() > GetSize()`); mode 2 (delete) when the child is above its
minimum (`GetMinSize() < GetSize()`). -/
def releaseSafe (mode : Nat) (child : Node) : Bool :=
  if mode = 0 then true
  else if mode = 1 then child.size < child.maxSize
  else child.minSize < child.size

/-- One transactional crabbing step (`b_plus_tree.cpp:637-660`): the freshly
latched child triggers `clearTxnWorkSet` — dropping every ancestor from the
work set — exactly when it is safe, and is then pushed onto the work set. -/
def crabStep (mode : Nat) (ws : List PageId) (child : Node) (childId : PageId) :
    List PageId :=
  (if releaseSafe mode child then [] else ws) ++ [childId]

/-- Result of `GetLeafPage`: the returned leaf pointer is either null (empty
tree) or a leaf page id together with the transaction's work set. -/
inductive LeafRes where
  | null : LeafRes
  | found : PageId → List PageId → LeafRes
deriving DecidableEq, Repr

/-- The descent loop of `GetLeafPage` (`b_plus_tree.cpp:629-664`): while the
current page is internal, look up the child for the key; with a transaction,
latch it, apply the release rule on the work set and push the child; without a
transaction, unpin the parent.  `none` models a missing page or a mode outside
`{0,1,2}` (`assert(false)`), or exhausted fuel. -/
def GetLeafPageLoop (st : BPTState) (key : Key) (txn : Bool) (mode : Nat) :
    Nat → PageId → List PageId → Option (PageId × List PageId)
  | 0, _, _ => none
  | Nat.succ fuel, pid, ws =>
    match getPage st.pages pid with
    | none => none
    | some (.leaf _) => some (pid, ws)
    | some (.internal ip) =>
      let next := ip.lookup key
      match getPage st.pages next with
      | none => none
      | some child =>
        if txn then
          if mode = 0 ∨ mode = 1 ∨ mode = 2 then
            GetLeafPageLoop st key txn mode fuel next (crabStep mode ws child next)
          else none
        else
          GetLeafPageLoop st key txn mode fuel next ws

/-- `GetLeafPage` (`b_plus_tree.cpp:608`): null on an empty tree; otherwise
fetch and latch the root (the root-race re-check loop exits at once in the
sequential model), push it onto the work set when a transaction is supplied,
and descend. -/
def GetLeafPage (st : BPTState) (key : Key) (txn : Bool) (mode : Nat)
    (fuel : Nat) : Option LeafRes :=
  if st.rootPageId = INVALID_PAGE_ID then some .null
  else
    (GetLeafPageLoop st key txn mode fuel st.rootPageId
        (if txn then [st.rootPageId] else [])).map (fun r => .found r.1 r.2)

/-- `GetValue` (`b_plus_tree.cpp:38`): descend to the leaf (search mode), call
`Lookup` on it, drain the work set (or unpin the leaf) and return whether the
key exists.  The result of `GetLeafPage` is dereferenced *without* a null
check, so on an empty tree `leaf->Lookup` reads through a null pointer:
modelled as `none` (no result). -/
def GetValue (st : BPTState) (key : Key) (txn : Bool) (fuel : Nat) :
    Option (Bool × List PageId) :=
  match GetLeafPage st key txn 0 fuel with
  | none => none
  | some .null => none
  | some (.found pid _ws) =>
    match getPage st.pages pid with
    | some (.leaf l) => some ((l.lookup key).isSome, [])
    | _ => none

/-- C2 (code bug): on the empty tree, `GetValue` produces no result at all:
`GetLeafPage` returns a null leaf pointer (`b_plus_tree.cpp:612`) and
`GetValue` dereferences it at once (`b_plus_tree.cpp:44`), instead of
reporting the key as absent. -/
theorem getValue_empty_tree_crashes
    (st : BPTState) (key : Key) (txn : Bool) (fuel : Nat)
    (hempty : st.rootPageId = INVALID_PAGE_ID) :
    GetValue st key txn fuel = none := by
  simp [GetValue, GetLeafPage, hempty]

/-- The empty tree: no pages, invalid root. -/
def emptyState : BPTState :=
  { indexName := "idx", pages := [], rootPageId := INVALID_PAGE_ID,
    nextPageId := 1, header := [], leafMax := 4, internalMax := 5 }

/-- Witness for C2: `GetValue` on the concrete empty tree returns nothing —
in particular it does not return `false` as the specification requires. -/
theorem getValue_empty_tree_crashes_witness :
    GetValue emptyState 7 true 10 = none ∧ GetValue emptyState 7 false 10 = none :=
  ⟨getValue_empty_tree_crashes emptyState 7 true 10 (by decide),
   getValue_empty_tree_crashes emptyState 7 false 10 (by decide)⟩

/-- C8: the crabbing release rule.  At each transactional descent step
(`GetLeafPageLoop` advances by `crabStep`), the entire ancestor work set is
dropped exactly when the freshly latched child is safe — unconditionally in
read mode 0, when `size < max_size` in insert mode 1, when `size > min_size`
in delete mode 2 — and otherwise every ancestor is retained below the pushed
child. -/
theorem crabbing_release_rule
    (st : BPTState) (key : Key) (mode : Nat) (fuel : Nat) (pid : PageId)
    (ws : List PageId) (ip : InternalNode) (child : Node)
    (hmode : mode = 0 ∨ mode = 1 ∨ mode = 2)
    (hpage : getPage st.pages pid = some (.internal ip))
    (hchild : getPage st.pages (ip.lookup key) = some child)
    (hws : ws ≠ []) :
    GetLeafPageLoop st key true mode (fuel + 1) pid ws =
      GetLeafPageLoop st key true mode fuel (ip.lookup key)
        (crabStep mode ws child (ip.lookup key)) ∧
    (crabStep mode ws child (ip.lookup key) = [ip.lookup key] ↔
      (mode = 0 ∨ (mode = 1 ∧ child.size < child.maxSize) ∨
        (mode = 2 ∧ child.minSize < child.size))) ∧
    (¬ releaseSafe mode child →
      crabStep mode ws child (ip.lookup key) = ws ++ [ip.lookup key]) := by
  refine ⟨?_, ?_, ?_⟩
  · simp only [GetLeafPageLoop, hpage, hchild, if_pos hmode, if_true]
  · constructor
    · intro h
      by_cases hsafe : releaseSafe mode child
      · rcases hmode with h0 | h1 | h2
        · exact Or.inl h0
        · refine Or.inr (Or.inl ⟨h1, ?_⟩)
          simp only [releaseSafe, h1] at hsafe
          simpa using hsafe
        · rcases Nat.eq_zero_or_pos mode with hm | _
          · exact Or.inl hm
          · by_cases hm1 : mode = 1
            · refine Or.inr (Or.inl ⟨hm1, ?_⟩)
              simp only [releaseSafe, hm1] at hsafe
              simpa using hsafe
            · refine Or.inr (Or.inr ⟨h2, ?_⟩)
              have hm0 : ¬ mode = 0 := by omega
              simp only [releaseSafe, hm0, hm1, if_false] at hsafe
              simpa using hsafe
      · exfalso
        simp only [crabStep, if_neg hsafe] at h
        have : ws = [] := by
          rcases ws with _ | ⟨a, rest⟩
          · rfl
          · exfalso
            have hlen := congrArg List.length h
            simp at hlen
        exact hws this
    · intro h
      have hsafe : releaseSafe mode child = true := by
        rcases h with h0 | ⟨h1, hlt⟩ | ⟨h2, hlt⟩
        · simp [releaseSafe, h0]
        · simp [releaseSafe, h1, hlt]
        · have hm0 : ¬ mode = 0 := by omega
          have hm1 : ¬ mode = 1 := by omega
          simp [releaseSafe, hm0, hm1, hlt]
      simp [crabStep, hsafe]
  · intro hsafe
    simp only [crabStep, if_neg hsafe]

/-- A three-page tree: an internal root above two leaves, keys split at 5. -/
def twoLeafState : BPTState :=
  { indexName := "idx",
    pages :=
      [(1, .internal { parentPageId := INVALID_PAGE_ID, maxSize := 5,
                       entries := [(0, 2), (5, 3)] }),
       (2, .leaf { parentPageId := 1, maxSize := 4,
                   entries := [(1, 10), (5, 50)], nextPageId := 3 }),
       (3, .leaf { parentPageId := 1, maxSize := 4,
                   entries := [(7, 70), (9, 90)], nextPageId := INVALID_PAGE_ID })],
    rootPageId := 1,
    nextPageId := 4,
    header := [("idx", 1)],
    leafMax := 4,
    internalMax := 5 }

/-- Witness for C8: one delete-mode descent step in the concrete two-leaf tree.
The left leaf holds exactly `min_size = 2` entries, so it is unsafe for delete
and the ancestor work set is retained. -/
theorem crabbing_release_rule_witness :
    GetLeafPageLoop twoLeafState 1 true 2 3 1 [1] =
      GetLeafPageLoop twoLeafState 1 true 2 2 2 (crabStep 2 [1]
        (.leaf { parentPageId := 1, maxSize := 4,
                 entries := [(1, 10), (5, 50)], nextPageId := 3 }) 2) ∧
    (crabStep 2 [1]
        (.leaf { parentPageId := 1, maxSize := 4,
                 entries := [(1, 10), (5, 50)], nextPageId := 3 }) 2 = [2] ↔
      (2 = 0 ∨ (2 = 1 ∧ 2 < 4) ∨ (2 = 2 ∧ 2 < 2))) := by
  have h := crabbing_release_rule twoLeafState 1 2 2 1 [1]
    { parentPageId := INVALID_PAGE_ID, maxSize := 5, entries := [(0, 2), (5, 3)] }
    (.leaf { parentPageId := 1, maxSize := 4,
             entries := [(1, 10), (5, 50)], nextPageId := 3 })
    (by decide) (by rfl) (by rfl) (by decide)
  exact ⟨h.1, h.2.1⟩

/-! ## Deletion: node primitives and the remove path -/

/-- `LeafNode.keyAt`: `KeyAt(i)` (modelled from the spec). -/
def LeafNode.keyAt (l : LeafNode) (i : Nat) : Key :=
  ((l.entries.get? i).map Prod.fst).getD 0

/-- Modelled from the spec: `remove_and_delete(k) → new_size` — "removes if
present". -/
def LeafNode.removeAndDelete (l : LeafNode) (k : Key) : LeafNode × Nat :=
  let es := l.entries.filter (fun e => ¬ e.1 = k)
  ({ l with entries := es }, es.length)

/-- `InternalNode.keyAt`: `KeyAt(i)` (modelled from the spec). -/
def InternalNode.keyAt (ip : InternalNode) (i : Nat) : Key :=
  ((ip.entries.get? i).map Prod.fst).getD 0

/-- `InternalNode.valueIndex`: `ValueIndex(child_id) → i`, the reverse lookup
(modelled from the spec). -/
def InternalNode.valueIndex (ip : InternalNode) (cid : PageId) : Nat :=
  ip.entries.findIdx (fun e => e.2 == cid)

/-- `SetKeyAt(i)` (modelled from the spec). -/
def InternalNode.setKeyAt (ip : InternalNode) (i : Nat) (k : Key) : InternalNode :=
  { ip with entries := ip.entries.set i (k, ip.valueAt i) }

/-- `SetValueAt(i)` (modelled from the spec). -/
def InternalNode.setValueAt (ip : InternalNode) (i : Nat) (v : PageId) : InternalNode :=
  { ip with entries := ip.entries.set i (ip.keyAt i, v) }

/-- `Remove(i)` (modelled from the spec). -/
def InternalNode.remove (ip : InternalNode) (i : Nat) : InternalNode :=
  { ip with entries := ip.entries.eraseIdx i }

/-- Rewrite a child's `parent_page_id` (the move primitives "re-parent the
moved child" through the buffer pool). -/
def reparent (pages : Pages) (cid : PageId) (newParent : PageId) : Pages :=
  match getPage pages cid with
  | none => pages
  | some n => setPage pages cid (n.setParentPageId newParent)

/-- Re-parent every child in a list. -/
def reparentAll (pages : Pages) (cids : List PageId) (p : PageId) : Pages :=
  cids.foldl (fun pgs c => reparent pgs c p) pages

/-- Update the separator key the parent stores for `childId`
(the spec mandates that "parent key maintenance must be performed inside the
move operation"). -/
def setParentSeparator (st : BPTState) (parentId childId : PageId) (k : Key) :
    BPTState :=
  match getPage st.pages parentId with
  | some (.internal p) =>
    { st with pages :=
        setPage st.pages parentId (.internal (p.setKeyAt (p.valueIndex childId) k)) }
  | _ => st

/-- Modelled from the spec: `move_first_to_end_of(target)` — the neighbor is
the node's right sibling; its first entry moves to the node's end; for
internal nodes the moved child is re-parented; "the parent's separator key for
`neighbor` becomes `neighbor.key_at(0)` after the move". -/
def moveFirstToEndOf (st : BPTState) (neighborId nodeId : PageId) : BPTState :=
  match getPage st.pages neighborId, getPage st.pages nodeId with
  | some (.leaf nb), some (.leaf nd) =>
    match nb.entries with
    | [] => st
    | e :: rest =>
      let nb' : LeafNode := { nb with entries := rest }
      let nd' : LeafNode := { nd with entries := nd.entries ++ [e] }
      let pgs := setPage (setPage st.pages neighborId (.leaf nb')) nodeId (.leaf nd')
      let st' := { st with pages := pgs }
      setParentSeparator st' nb.parentPageId neighborId (nb'.keyAt 0)
  | some (.internal nb), some (.internal nd) =>
    match nb.entries with
    | [] => st
    | e :: rest =>
      let nb' : InternalNode := { nb with entries := rest }
      let nd' : InternalNode := { nd with entries := nd.entries ++ [(nb.keyAt 1, e.2)] }
      let pgs0 := setPage (setPage st.pages neighborId (.internal nb')) nodeId (.internal nd')
      let st' := { st with pages := reparent pgs0 e.2 nodeId }
      setParentSeparator st' nb.parentPageId neighborId (nb'.keyAt 0)
  | _, _ => st

/-- Modelled from the spec: `move_last_to_front_of(target, index)` — the
neighbor is the node's left sibling; its last entry moves to the node's front;
for internal nodes the moved child is re-parented; the parent's separator key
for `node` becomes "`node.key_at(0)` (internal) / `neighbor.key_at(neighbor.size
- 1)` (leaf)" after the move. -/
def moveLastToFrontOf (st : BPTState) (neighborId nodeId : PageId) : BPTState :=
  match getPage st.pages neighborId, getPage st.pages nodeId with
  | some (.leaf nb), some (.leaf nd) =>
    match nb.entries.getLast? with
    | none => st
    | some e =>
      let nb' : LeafNode := { nb with entries := nb.entries.dropLast }
      let nd' : LeafNode := { nd with entries := e :: nd.entries }
      let pgs := setPage (setPage st.pages neighborId (.leaf nb')) nodeId (.leaf nd')
      let st' := { st with pages := pgs }
      setParentSeparator st' nb.parentPageId nodeId (nb'.keyAt (nb'.entries.length - 1))
  | some (.internal nb), some (.internal nd) =>
    match nb.entries.getLast? with
    | none => st
    | some e =>
      let nb' : InternalNode := { nb with entries := nb.entries.dropLast }
      let nd' : InternalNode := { nd with entries := e :: nd.entries }
      let pgs0 := setPage (setPage st.pages neighborId (.internal nb')) nodeId (.internal nd')
      let st' := { st with pages := reparent pgs0 e.2 nodeId }
      setParentSeparator st' nb.parentPageId nodeId (nd'.keyAt 0)
  | _, _ => st

/-- `Redistribute` (`b_plus_tree.cpp:409`): `index == 0` moves the (right)
sibling's first entry to the end of the node, otherwise the (left) sibling's
last entry to the node's front; the parent-key update lives inside the move
primitives. -/
def Redistribute (st : BPTState) (neighborId nodeId : PageId) (index : Nat) :
    BPTState :=
  if index = 0 then moveFirstToEndOf st neighborId nodeId
  else moveLastToFrontOf st neighborId nodeId

/-- Modelled from the spec: `move_all_to` for leaves — all entries move to the
sibling keeping key order, and the leaf chain is mended
("`left.next_leaf = node.next_leaf`" when merging into the left sibling). -/
def leafMoveAllTo (l recipient : LeafNode) (intoLeft : Bool) : LeafNode :=
  if intoLeft then
    { recipient with entries := recipient.entries ++ l.entries,
                     nextPageId := l.nextPageId }
  else
    { recipient with entries := l.entries ++ recipient.entries }

/-- "entry 0's key becomes `middle_key` (the separator from the parent)". -/
def attachMiddleKey (k : Key) : List (Key × PageId) → List (Key × PageId)
  | [] => []
  | e :: rest => (k, e.2) :: rest

/-- Modelled from the spec: `move_all_to` for internal nodes — append all
entries to the sibling in key order, the separator from the parent becoming
the key of the first child that changes sides. -/
def internalMoveAllTo (ipn recipient : InternalNode) (middleKey : Key)
    (intoLeft : Bool) : InternalNode :=
  if intoLeft then
    { recipient with entries := recipient.entries ++ attachMiddleKey middleKey ipn.entries }
  else
    { recipient with entries := ipn.entries ++ attachMiddleKey middleKey recipient.entries }

/-- The state-level `MoveAllTo`: the node's entries move into the recipient
(the source page is emptied and later deleted by the caller); children moved
into an internal recipient are re-parented. -/
def moveAllTo (st : BPTState) (nodeId recipientId : PageId) (middleKey : Key)
    (intoLeft : Bool) : BPTState :=
  match getPage st.pages nodeId, getPage st.pages recipientId with
  | some (.leaf l), some (.leaf r) =>
    let pgs := setPage (setPage st.pages recipientId (.leaf (leafMoveAllTo l r intoLeft))) nodeId (.leaf { l with entries := [] })
    { st with pages := pgs }
  | some (.internal n), some (.internal r) =>
    let pgs := setPage (setPage st.pages recipientId (.internal (internalMoveAllTo n r middleKey intoLeft))) nodeId (.internal { n with entries := [] })
    { st with pages := reparentAll pgs (n.entries.map Prod.snd) recipientId }
  | _, _ => st

/-- `Coalesce` (`b_plus_tree.cpp:373`).  `index == 0` merges the node into its
left neighbor: move everything across (the separator `parent.key_at(value_index
node)` as middle key) and remove the parent entry pointing at the node.
`index == 1` merges into the right neighbor: move across with the separator at
the neighbor's parent index, remove the parent entry pointing at the neighbor,
and rewrite the entry pointing at the node to point at the neighbor.  Returns
whether the parent now underflows (a result the caller ignores). -/
def Coalesce (st : BPTState) (neighborId nodeId parentId : PageId)
    (index : Nat) : Option (BPTState × Bool) :=
  match getPage st.pages parentId with
  | some (.internal parent) =>
    if index = 0 then
      let st' := moveAllTo st nodeId neighborId (parent.keyAt (parent.valueIndex nodeId)) true
      match getPage st'.pages parentId with
      | some (.internal p2) =>
        let p3 := p2.remove (p2.valueIndex nodeId)
        some ({ st' with pages := setPage st'.pages parentId (.internal p3) },
              p3.entries.length < (Node.internal p3).minSize)
      | _ => none
    else if index = 1 then
      let st' := moveAllTo st nodeId neighborId (parent.keyAt (parent.valueIndex neighborId)) false
      match getPage st'.pages parentId with
      | some (.internal p2) =>
        let p3 := p2.remove (p2.valueIndex neighborId)
        let p4 := p3.setValueAt (p3.valueIndex nodeId) neighborId
        some ({ st' with pages := setPage st'.pages parentId (.internal p4) },
              p4.entries.length < (Node.internal p4).minSize)
      | _ => none
    else none
  | _ => none

/-- Outcome of the non-recursive part of `CoalesceOrRedistribute`: either the
call finishes (state, return value, work set), or a coalesce happened and the
parent must be examined recursively. -/
inductive CoRPlan where
  | done : BPTState → Bool → List PageId → CoRPlan
  | coalesced : BPTState → PageId → List PageId → CoRPlan

/-- Right-sibling phase of `CoalesceOrRedistribute`
(`b_plus_tree.cpp:307-344`): try to redistribute with a right sibling above
its minimum; otherwise coalesce, preferring the left sibling when one exists
(`assert(leftSibling || rightSibling)` otherwise).  `hasLeft` records whether a
(non-redistributable) left sibling was found in the first phase. -/
def CoRStepRight (st : BPTState) (nodeId parentId : PageId)
    (parent : InternalNode) (idx : Nat) (txn : Bool) (ws : List PageId)
    (hasLeft : Bool) : Option CoRPlan :=
  let leftId := parent.valueAt (idx - 1)
  let rightId := parent.valueAt (idx + 1)
  if idx + 1 < parent.entries.length then
    match getPage st.pages rightId with
    | none => none
    | some rs =>
      let ws₂ := if txn then ws ++ [rightId] else ws
      if rs.minSize < rs.size then
        some (.done (Redistribute st rightId nodeId 0) false ws₂)
      else if hasLeft then
        (Coalesce st leftId nodeId parentId 0).map (fun r => .coalesced r.1 parentId ws₂)
      else
        (Coalesce st rightId nodeId parentId 1).map (fun r => .coalesced r.1 parentId ws₂)
  else if hasLeft then
    (Coalesce st leftId nodeId parentId 0).map (fun r => .coalesced r.1 parentId ws)
  else none

/-- The non-recursive body of `CoalesceOrRedistribute`
(`b_plus_tree.cpp:267-344`): nothing to do at or above the minimum; the root
delegates to `AdjustRoot`; otherwise fetch the parent and try, in order,
redistribution with a left sibling above its minimum, redistribution with a
right sibling above its minimum, and coalescing (left preferred).  Sibling
pages fetched under a transaction enter its page set. -/
def CoRStep (st : BPTState) (nodeId : PageId) (txn : Bool) (ws : List PageId) :
    Option CoRPlan :=
  match getPage st.pages nodeId with
  | none => none
  | some node =>
    if node.minSize ≤ node.size then some (.done st false ws)
    else if node.parentPageId = INVALID_PAGE_ID then
      (AdjustRoot st nodeId).map (fun r => .done r.1 r.2 ws)
    else
      match getPage st.pages node.parentPageId with
      | some (.internal parent) =>
        let parentId := node.parentPageId
        let idx := parent.valueIndex nodeId
        if 1 ≤ idx then
          let leftId := parent.valueAt (idx - 1)
          match getPage st.pages leftId with
          | none => none
          | some ls =>
            let ws₁ := if txn then ws ++ [leftId] else ws
            if ls.minSize < ls.size then
              some (.done (Redistribute st leftId nodeId 1) false ws₁)
            else
              CoRStepRight st nodeId parentId parent idx txn ws₁ true
        else
          CoRStepRight st nodeId parentId parent idx txn ws false
      | _ => none

/-- `CoalesceOrRedistribute` (`b_plus_tree.cpp:267`): after a coalesce the
parent is processed recursively (`b_plus_tree.cpp:346`) and deleted when that
recursion asks for it; the merged-away node's own deletion is the caller's
job, signalled by the `true` return. -/
def CoalesceOrRedistribute :
    Nat → BPTState → PageId → Bool → List PageId →
      Option (BPTState × Bool × List PageId)
  | 0, _, _, _, _ => none
  | Nat.succ fuel, st, nodeId, txn, ws =>
    match CoRStep st nodeId txn ws with
    | none => none
    | some (.done st' b ws') => some (st', b, ws')
    | some (.coalesced st₁ parentId ws₂) =>
      match CoalesceOrRedistribute fuel st₁ parentId txn ws₂ with
      | none => none
      | some (st₂, del, ws₃) =>
        some ((if del then { st₂ with pages := delPage st₂.pages parentId } else st₂),
              true, ws₃)

/-- `Remove` (`b_plus_tree.cpp:225`): nothing on an empty tree; otherwise crab
down in delete mode, `RemoveAndDeleteRecord` on the leaf, repair through
`CoalesceOrRedistribute` when the leaf underflows, delete the leaf page when
asked to, and drain the transaction work set (deletions applied). -/
def Remove (st : BPTState) (key : Key) (txn : Bool) (fuel : Nat) :
    Option (BPTState × List PageId) :=
  if st.rootPageId = INVALID_PAGE_ID then some (st, [])
  else
    match GetLeafPage st key txn 2 fuel with
    | none => none
    | some .null => none
    | some (.found leafId ws) =>
      match getPage st.pages leafId with
      | some (.leaf l) =>
        let l' := (l.removeAndDelete key).1
        let st₁ := { st with pages := setPage st.pages leafId (.leaf l') }
        if (l.removeAndDelete key).2 < (Node.leaf l').minSize then
          match CoalesceOrRedistribute fuel st₁ leafId txn ws with
          | none => none
          | some (st₂, shouldRemove, _ws₂) =>
            if shouldRemove then
              some ({ st₂ with pages := delPage st₂.pages leafId }, [])
            else some (st₂, [])
        else some (st₁, [])
      | _ => none

/-! ## Helper lemmas about the page pool -/

theorem getPage_nil {pid : PageId} : getPage [] pid = none := rfl

theorem getPage_cons {q : PageId × Node} {rest : Pages} {pid : PageId} :
    getPage (q :: rest) pid =
      if q.1 == pid then some q.2 else getPage rest pid := by
  by_cases hq : q.1 = pid
  · have h1 : (q.1 == pid) = true := beq_iff_eq.mpr hq
    simp [getPage, List.find?_cons, h1]
  · have h1 : (q.1 == pid) = false := beq_eq_false_iff_ne.mpr hq
    simp [getPage, List.find?_cons, h1]

theorem getPage_mem {pages : Pages} {pid : PageId} {n : Node}
    (h : getPage pages pid = some n) : (pid, n) ∈ pages := by
  induction pages with
  | nil => simp [getPage] at h
  | cons q rest ih =>
    obtain ⟨qa, qb⟩ := q
    rw [getPage_cons] at h
    by_cases hq : qa = pid
    · have h1 : (qa == pid) = true := beq_iff_eq.mpr hq
      simp only [h1, if_true, Option.some.injEq] at h
      subst hq
      subst h
      exact List.mem_cons_self _ _
    · have h1 : (qa == pid) = false := beq_eq_false_iff_ne.mpr hq
      simp only [h1, Bool.false_eq_true, if_false] at h
      exact List.mem_cons_of_mem _ (ih h)

theorem setPage_not_mem {pages : Pages} {pid : PageId} {n : Node}
    (h : pid ∉ pages.map Prod.fst) : setPage pages pid n = pages := by
  induction pages with
  | nil => rfl
  | cons q rest ih =>
    obtain ⟨qa, qb⟩ := q
    simp only [List.map_cons, List.mem_cons, not_or] at h
    have h1 : (qa == pid) = false := beq_eq_false_iff_ne.mpr (fun hh => h.1 hh.symm)
    simp only [setPage, List.map_cons, h1, Bool.false_eq_true, if_false,
      List.cons.injEq, true_and]
    exact ih h.2

theorem setPage_self {pages : Pages} {pid : PageId} {n : Node}
    (hnodup : (pages.map Prod.fst).Nodup)
    (h : getPage pages pid = some n) : setPage pages pid n = pages := by
  induction pages with
  | nil => rfl
  | cons q rest ih =>
    obtain ⟨qa, qb⟩ := q
    simp only [List.map_cons, List.nodup_cons] at hnodup
    rw [getPage_cons] at h
    by_cases hq : qa = pid
    · have h1 : (qa == pid) = true := beq_iff_eq.mpr hq
      simp only [h1, if_true, Option.some.injEq] at h
      have hrest : setPage rest pid n = rest :=
        setPage_not_mem (by rw [← hq]; exact hnodup.1)
      simp only [setPage, List.map_cons, h1, if_true, List.cons.injEq]
      exact ⟨by rw [← hq, ← h], hrest⟩
    · have h1 : (qa == pid) = false := beq_eq_false_iff_ne.mpr hq
      simp only [h1, Bool.false_eq_true, if_false] at h
      simp only [setPage, List.map_cons, h1, Bool.false_eq_true, if_false,
        List.cons.injEq, true_and]
      exact ih hnodup.2 h

theorem getPage_setPage_ne {pages : Pages} {pid pid' : PageId} {n : Node}
    (h : pid' ≠ pid) :
    getPage (setPage pages pid n) pid' = getPage pages pid' := by
  induction pages with
  | nil => rfl
  | cons q rest ih =>
    obtain ⟨qa, qb⟩ := q
    by_cases hq : qa = pid
    · have h1 : (qa == pid) = true := beq_iff_eq.mpr hq
      have h2 : (pid == pid') = false := beq_eq_false_iff_ne.mpr (Ne.symm h)
      have h3 : (qa == pid') = false :=
        beq_eq_false_iff_ne.mpr (by rw [hq]; exact Ne.symm h)
      simp only [setPage, List.map_cons, h1, if_true]
      rw [getPage_cons, getPage_cons]
      simp only [h2, h3, Bool.false_eq_true, if_false]
      exact ih
    · have h1 : (qa == pid) = false := beq_eq_false_iff_ne.mpr hq
      simp only [setPage, List.map_cons, h1, Bool.false_eq_true, if_false]
      rw [getPage_cons, getPage_cons]
      by_cases hq' : qa = pid'
      · have h2 : (qa == pid') = true := beq_iff_eq.mpr hq'
        simp only [h2, if_true]
      · have h2 : (qa == pid') = false := beq_eq_false_iff_ne.mpr hq'
        simp only [h2, Bool.false_eq_true, if_false]
        exact ih

theorem getPage_setPage_self {pages : Pages} {pid : PageId} {n m : Node}
    (h : getPage pages pid = some m) :
    getPage (setPage pages pid n) pid = some n := by
  induction pages with
  | nil => simp [getPage] at h
  | cons q rest ih =>
    obtain ⟨qa, qb⟩ := q
    rw [getPage_cons] at h
    by_cases hq : qa = pid
    · have h1 : (qa == pid) = true := beq_iff_eq.mpr hq
      simp only [setPage, List.map_cons, h1, if_true]
      rw [getPage_cons]
      simp
    · have h1 : (qa == pid) = false := beq_eq_false_iff_ne.mpr hq
      simp only [h1, Bool.false_eq_true, if_false] at h
      simp only [setPage, List.map_cons, h1, Bool.false_eq_true, if_false]
      rw [getPage_cons]
      simp only [h1, Bool.false_eq_true, if_false]
      exact ih h

theorem getPage_addPage_ne {pages : Pages} {pid pid' : PageId} {n : Node}
    (h : pid' ≠ pid) :
    getPage (addPage pages pid n) pid' = getPage pages pid' := by
  induction pages with
  | nil =>
    have h1 : (pid == pid') = false := beq_eq_false_iff_ne.mpr (Ne.symm h)
    simp [addPage, getPage_cons, h1, getPage]
  | cons q rest ih =>
    obtain ⟨qa, qb⟩ := q
    simp only [addPage, List.cons_append]
    rw [getPage_cons, getPage_cons]
    by_cases hq : qa = pid'
    · have h2 : (qa == pid') = true := beq_iff_eq.mpr hq
      simp only [h2, if_true]
    · have h2 : (qa == pid') = false := beq_eq_false_iff_ne.mpr hq
      simp only [h2, Bool.false_eq_true, if_false]
      exact ih

theorem getPage_addPage_self {pages : Pages} {pid : PageId} {n : Node}
    (h : getPage pages pid = none) :
    getPage (addPage pages pid n) pid = some n := by
  induction pages with
  | nil => simp [addPage, getPage_cons, getPage]
  | cons q rest ih =>
    obtain ⟨qa, qb⟩ := q
    rw [getPage_cons] at h
    by_cases hq : qa = pid
    · have h1 : (qa == pid) = true := beq_iff_eq.mpr hq
      simp [h1] at h
    · have h1 : (qa == pid) = false := beq_eq_false_iff_ne.mpr hq
      simp only [h1, Bool.false_eq_true, if_false] at h
      simp only [addPage, List.cons_append]
      rw [getPage_cons]
      simp only [h1, Bool.false_eq_true, if_false]
      exact ih h

theorem getPage_setParentSeparator_ne {st : BPTState} {parentId childId q : PageId}
    {k : Key} (h : q ≠ parentId) :
    getPage (setParentSeparator st parentId childId k).pages q = getPage st.pages q := by
  unfold setParentSeparator
  rcases hg : getPage st.pages parentId with _ | n
  · rfl
  · cases n with
    | leaf l => rfl
    | internal ip =>
      simp only
      exact getPage_setPage_ne h

/-- C9: the deletion sibling strategy of `CoalesceOrRedistribute`.  (a) With a
left sibling above its minimum, redistribute from it and return `false`;
(b) otherwise with a right sibling above its minimum, redistribute from it and
return `false`; (c) otherwise coalesce into the left sibling whenever one
exists, returning `true`; (d) only a leftmost node coalesces into its right
sibling, returning `true`.  (e) `Redistribute(neighbor, node, 1)` on leaves
moves the left sibling's last entry to the node's front, and (f)
`Redistribute(neighbor, node, 0)` moves the right sibling's first entry to the
node's end. -/
theorem coalesceOrRedistribute_strategy
    (st : BPTState) (nodeId : PageId) (txn : Bool) (ws : List PageId)
    (fuel : Nat) (node : Node) (parent : InternalNode)
    (idx : Nat) (leftId rightId : PageId)
    (hnode : getPage st.pages nodeId = some node)
    (hsmall : node.size < node.minSize)
    (hpar : ¬ node.parentPageId = INVALID_PAGE_ID)
    (hpp : getPage st.pages node.parentPageId = some (.internal parent))
    (hidx : idx = parent.valueIndex nodeId)
    (hleft : leftId = parent.valueAt (idx - 1))
    (hright : rightId = parent.valueAt (idx + 1)) :
    (∀ ls, 1 ≤ idx → getPage st.pages leftId = some ls → ls.minSize < ls.size →
      CoalesceOrRedistribute (fuel + 1) st nodeId txn ws =
        some (Redistribute st leftId nodeId 1, false,
              if txn then ws ++ [leftId] else ws)) ∧
    (∀ rs, (idx = 0 ∨ ∃ ls, getPage st.pages leftId = some ls ∧ ¬ ls.minSize < ls.size) →
      idx + 1 < parent.entries.length →
      getPage st.pages rightId = some rs → rs.minSize < rs.size →
      CoalesceOrRedistribute (fuel + 1) st nodeId txn ws =
        some (Redistribute st rightId nodeId 0, false,
              if txn then (if 1 ≤ idx then ws ++ [leftId] else ws) ++ [rightId]
              else ws)) ∧
    (∀ ls stc b st₂ del ws₃, 1 ≤ idx →
      getPage st.pages leftId = some ls → ¬ ls.minSize < ls.size →
      (¬ idx + 1 < parent.entries.length ∨
        ∃ rs, getPage st.pages rightId = some rs ∧ ¬ rs.minSize < rs.size) →
      Coalesce st leftId nodeId node.parentPageId 0 = some (stc, b) →
      CoalesceOrRedistribute fuel stc node.parentPageId txn
          (if txn then
            (if idx + 1 < parent.entries.length then (ws ++ [leftId]) ++ [rightId]
             else ws ++ [leftId])
           else ws) = some (st₂, del, ws₃) →
      CoalesceOrRedistribute (fuel + 1) st nodeId txn ws =
        some ((if del then { st₂ with pages := delPage st₂.pages node.parentPageId }
               else st₂), true, ws₃)) ∧
    (∀ rs stc b st₂ del ws₃, idx = 0 → idx + 1 < parent.entries.length →
      getPage st.pages rightId = some rs → ¬ rs.minSize < rs.size →
      Coalesce st rightId nodeId node.parentPageId 1 = some (stc, b) →
      CoalesceOrRedistribute fuel stc node.parentPageId txn
          (if txn then ws ++ [rightId] else ws) = some (st₂, del, ws₃) →
      CoalesceOrRedistribute (fuel + 1) st nodeId txn ws =
        some ((if del then { st₂ with pages := delPage st₂.pages node.parentPageId }
               else st₂), true, ws₃)) ∧
    (∀ (st' : BPTState) (nbId ndId : PageId) (nb nd : LeafNode)
        (es : List (Key × RID)) (e : Key × RID),
      getPage st'.pages nbId = some (.leaf nb) →
      getPage st'.pages ndId = some (.leaf nd) →
      nb.entries = es ++ [e] → ¬ nbId = ndId → ¬ ndId = nb.parentPageId →
      ¬ nbId = nb.parentPageId →
      getPage (Redistribute st' nbId ndId 1).pages ndId =
        some (.leaf { nd with entries := e :: nd.entries }) ∧
      getPage (Redistribute st' nbId ndId 1).pages nbId =
        some (.leaf { nb with entries := es })) ∧
    (∀ (st' : BPTState) (nbId ndId : PageId) (nb nd : LeafNode)
        (es : List (Key × RID)) (e : Key × RID),
      getPage st'.pages nbId = some (.leaf nb) →
      getPage st'.pages ndId = some (.leaf nd) →
      nb.entries = e :: es → ¬ nbId = ndId → ¬ ndId = nb.parentPageId →
      ¬ nbId = nb.parentPageId →
      getPage (Redistribute st' nbId ndId 0).pages ndId =
        some (.leaf { nd with entries := nd.entries ++ [e] }) ∧
      getPage (Redistribute st' nbId ndId 0).pages nbId =
        some (.leaf { nb with entries := es })) := by
  subst hidx
  subst hleft
  subst hright
  have hfuel : CoalesceOrRedistribute (fuel + 1) st nodeId txn ws =
      match CoRStep st nodeId txn ws with
      | none => none
      | some (.done st' b ws') => some (st', b, ws')
      | some (.coalesced st₁ parentId ws₂) =>
        match CoalesceOrRedistribute fuel st₁ parentId txn ws₂ with
        | none => none
        | some (st₂, del, ws₃) =>
          some ((if del then { st₂ with pages := delPage st₂.pages parentId } else st₂),
                true, ws₃) := rfl
  have hdone : ∀ s b w, CoRStep st nodeId txn ws = some (.done s b w) →
      CoalesceOrRedistribute (fuel + 1) st nodeId txn ws = some (s, b, w) := by
    intro s b w h
    rw [hfuel, h]
  have hcoalStep : ∀ s p w, CoRStep st nodeId txn ws = some (.coalesced s p w) →
      CoalesceOrRedistribute (fuel + 1) st nodeId txn ws =
        match CoalesceOrRedistribute fuel s p txn w with
        | none => none
        | some (st₂, del, ws₃) =>
          some ((if del then { st₂ with pages := delPage st₂.pages p } else st₂),
                true, ws₃) := by
    intro s p w h
    rw [hfuel, h]
  refine ⟨?_, ?_, ?_, ?_, ?_, ?_⟩
  · -- (a) redistribute with the left sibling
    intro ls h1 hls hsafe
    have hstep : CoRStep st nodeId txn ws =
        some (.done (Redistribute st (parent.valueAt (parent.valueIndex nodeId - 1)) nodeId 1)
          false
          (if txn then ws ++ [parent.valueAt (parent.valueIndex nodeId - 1)] else ws)) := by
      simp only [CoRStep, hnode]
      rw [if_neg (by omega), if_neg hpar]
      simp only [hpp, if_pos h1, hls]
      rw [if_pos hsafe]
    exact hdone _ _ _ hstep
  · -- (b) redistribute with the right sibling
    intro rs hlf hrex hrs hrsafe
    by_cases hil : 1 ≤ parent.valueIndex nodeId
    · have hlsex : ∃ ls, getPage st.pages (parent.valueAt (parent.valueIndex nodeId - 1)) =
          some ls ∧ ¬ ls.minSize < ls.size := by
        rcases hlf with h0 | h
        · omega
        · exact h
      obtain ⟨ls, hls, hlsunsafe⟩ := hlsex
      rw [if_pos hil]
      have hstep : CoRStep st nodeId txn ws =
          CoRStepRight st nodeId node.parentPageId parent (parent.valueIndex nodeId) txn
            (if txn then ws ++ [parent.valueAt (parent.valueIndex nodeId - 1)] else ws)
            true := by
        simp only [CoRStep, hnode]
        rw [if_neg (by omega), if_neg hpar]
        simp only [hpp, if_pos hil, hls]
        rw [if_neg hlsunsafe]
      have hstep2 : CoRStep st nodeId txn ws =
          some (.done (Redistribute st (parent.valueAt (parent.valueIndex nodeId + 1)) nodeId 0)
            false
            (if txn then
              (ws ++ [parent.valueAt (parent.valueIndex nodeId - 1)]) ++
                [parent.valueAt (parent.valueIndex nodeId + 1)]
             else ws)) := by
        rw [hstep]
        simp only [CoRStepRight, if_pos hrex, hrs]
        rw [if_pos hrsafe]
        cases txn <;> simp
      exact hdone _ _ _ hstep2
    · rw [if_neg hil]
      have hstep : CoRStep st nodeId txn ws =
          CoRStepRight st nodeId node.parentPageId parent (parent.valueIndex nodeId) txn ws
            false := by
        simp only [CoRStep, hnode]
        rw [if_neg (by omega), if_neg hpar]
        simp only [hpp]
        rw [if_neg hil]
      have hstep2 : CoRStep st nodeId txn ws =
          some (.done (Redistribute st (parent.valueAt (parent.valueIndex nodeId + 1)) nodeId 0)
            false
            (if txn then ws ++ [parent.valueAt (parent.valueIndex nodeId + 1)] else ws)) := by
        rw [hstep]
        simp only [CoRStepRight, if_pos hrex, hrs]
        rw [if_pos hrsafe]
      exact hdone _ _ _ hstep2
  · -- (c) coalesce into the left sibling
    intro ls stc b st₂ del ws₃ h1 hls hlsunsafe hrfail hcoal hrec
    have hstep : CoRStep st nodeId txn ws =
        CoRStepRight st nodeId node.parentPageId parent (parent.valueIndex nodeId) txn
          (if txn then ws ++ [parent.valueAt (parent.valueIndex nodeId - 1)] else ws)
          true := by
      simp only [CoRStep, hnode]
      rw [if_neg (by omega), if_neg hpar]
      simp only [hpp, if_pos h1, hls]
      rw [if_neg hlsunsafe]
    by_cases hrex : parent.valueIndex nodeId + 1 < parent.entries.length
    · have hrsex : ∃ rs, getPage st.pages (parent.valueAt (parent.valueIndex nodeId + 1)) =
          some rs ∧ ¬ rs.minSize < rs.size := by
        rcases hrfail with hno | h
        · exact absurd hrex hno
        · exact h
      obtain ⟨rs, hrs, hrsunsafe⟩ := hrsex
      rw [if_pos hrex] at hrec
      have hstep2 : CoRStep st nodeId txn ws =
          some (.coalesced stc node.parentPageId
            (if txn then
              (ws ++ [parent.valueAt (parent.valueIndex nodeId - 1)]) ++
                [parent.valueAt (parent.valueIndex nodeId + 1)]
             else ws)) := by
        rw [hstep]
        simp only [CoRStepRight, if_pos hrex, hrs]
        rw [if_neg hrsunsafe]
        cases txn <;> simp [hcoal]
      rw [hcoalStep _ _ _ hstep2, hrec]
    · rw [if_neg hrex] at hrec
      have hstep2 : CoRStep st nodeId txn ws =
          some (.coalesced stc node.parentPageId
            (if txn then ws ++ [parent.valueAt (parent.valueIndex nodeId - 1)] else ws)) := by
        rw [hstep]
        simp only [CoRStepRight]
        rw [if_neg hrex]
        simp [hcoal]
      rw [hcoalStep _ _ _ hstep2, hrec]
  · -- (d) leftmost node: coalesce into the right sibling
    intro rs stc b st₂ del ws₃ h0 hrex hrs hrsunsafe hcoal hrec
    have hstep : CoRStep st nodeId txn ws =
        CoRStepRight st nodeId node.parentPageId parent (parent.valueIndex nodeId) txn ws
          false := by
      simp only [CoRStep, hnode]
      rw [if_neg (by omega), if_neg hpar]
      simp only [hpp]
      rw [if_neg (by omega)]
    have hstep2 : CoRStep st nodeId txn ws =
        some (.coalesced stc node.parentPageId
          (if txn then ws ++ [parent.valueAt (parent.valueIndex nodeId + 1)] else ws)) := by
      rw [hstep]
      simp only [CoRStepRight, if_pos hrex, hrs]
      rw [if_neg hrsunsafe]
      simp [hcoal]
    rw [hcoalStep _ _ _ hstep2, hrec]
  · -- (e) Redistribute(_, _, 1): the left sibling's last entry moves to the front
    intro st' nbId ndId nb nd es e hnb hnd hes hne1 hne2 hne3
    have hred : Redistribute st' nbId ndId 1 = moveLastToFrontOf st' nbId ndId := by
      simp [Redistribute]
    have hlast : nb.entries.getLast? = some e := by
      rw [hes]
      exact List.getLast?_concat es
    have hdrop : nb.entries.dropLast = es := by
      rw [hes]
      exact List.dropLast_concat
    have hmove : moveLastToFrontOf st' nbId ndId =
        setParentSeparator
          { st' with pages := setPage (setPage st'.pages nbId (.leaf { nb with entries := es })) ndId (.leaf { nd with entries := e :: nd.entries }) }
          nb.parentPageId ndId
          (({ nb with entries := es } : LeafNode).keyAt
            (({ nb with entries := es } : LeafNode).entries.length - 1)) := by
      simp only [moveLastToFrontOf, hnb, hnd, hlast, hdrop]
    have hnd' : getPage (setPage (setPage st'.pages nbId (.leaf { nb with entries := es }))
        ndId (.leaf { nd with entries := e :: nd.entries })) ndId =
        some (.leaf { nd with entries := e :: nd.entries }) := by
      apply getPage_setPage_self (m := .leaf nd)
      rw [getPage_setPage_ne (fun hh => hne1 hh.symm)]
      exact hnd
    have hnb' : getPage (setPage (setPage st'.pages nbId (.leaf { nb with entries := es }))
        ndId (.leaf { nd with entries := e :: nd.entries })) nbId =
        some (.leaf { nb with entries := es }) := by
      rw [getPage_setPage_ne hne1]
      exact getPage_setPage_self (m := .leaf nb) hnb
    constructor
    · rw [hred, hmove, getPage_setParentSeparator_ne hne2]
      exact hnd'
    · rw [hred, hmove, getPage_setParentSeparator_ne hne3]
      exact hnb'
  · -- (f) Redistribute(_, _, 0): the right sibling's first entry moves to the end
    intro st' nbId ndId nb nd es e hnb hnd hes hne1 hne2 hne3
    have hred : Redistribute st' nbId ndId 0 = moveFirstToEndOf st' nbId ndId := by
      simp [Redistribute]
    have hmove : moveFirstToEndOf st' nbId ndId =
        setParentSeparator
          { st' with pages := setPage (setPage st'.pages nbId (.leaf { nb with entries := es })) ndId (.leaf { nd with entries := nd.entries ++ [e] }) }
          nb.parentPageId nbId
          (({ nb with entries := es } : LeafNode).keyAt 0) := by
      simp only [moveFirstToEndOf, hnb, hnd, hes]
    have hnd' : getPage (setPage (setPage st'.pages nbId (.leaf { nb with entries := es }))
        ndId (.leaf { nd with entries := nd.entries ++ [e] })) ndId =
        some (.leaf { nd with entries := nd.entries ++ [e] }) := by
      apply getPage_setPage_self (m := .leaf nd)
      rw [getPage_setPage_ne (fun hh => hne1 hh.symm)]
      exact hnd
    have hnb' : getPage (setPage (setPage st'.pages nbId (.leaf { nb with entries := es }))
        ndId (.leaf { nd with entries := nd.entries ++ [e] })) nbId =
        some (.leaf { nb with entries := es }) := by
      rw [getPage_setPage_ne hne1]
      exact getPage_setPage_self (m := .leaf nb) hnb
    constructor
    · rw [hred, hmove, getPage_setParentSeparator_ne hne2]
      exact hnd'
    · rw [hred, hmove, getPage_setParentSeparator_ne hne3]
      exact hnb'

/-- A tree whose right leaf underflows while its left sibling has an entry to
spare. -/
def redistState : BPTState :=
  { indexName := "idx",
    pages :=
      [(1, .internal { parentPageId := INVALID_PAGE_ID, maxSize := 5,
                       entries := [(0, 2), (5, 3)] }),
       (2, .leaf { parentPageId := 1, maxSize := 4,
                   entries := [(1, 10), (2, 20), (5, 50)], nextPageId := 3 }),
       (3, .leaf { parentPageId := 1, maxSize := 4,
                   entries := [(7, 70)], nextPageId := INVALID_PAGE_ID })],
    rootPageId := 1,
    nextPageId := 4,
    header := [("idx", 1)],
    leafMax := 4,
    internalMax := 5 }

/-- Witness for C9: in `redistState` the underflowing leaf 3 has left sibling 2
above its minimum, so `CoalesceOrRedistribute` redistributes from the left and
returns `false`. -/
theorem coalesceOrRedistribute_strategy_witness :
    CoalesceOrRedistribute 1 redistState 3 false [] =
      some (Redistribute redistState 2 3 1, false, []) := by
  have h := (coalesceOrRedistribute_strategy redistState 3 false [] 0
    (.leaf { parentPageId := 1, maxSize := 4,
             entries := [(7, 70)], nextPageId := INVALID_PAGE_ID })
    { parentPageId := INVALID_PAGE_ID, maxSize := 5, entries := [(0, 2), (5, 3)] }
    1 2 (-1)
    (by rfl) (by decide) (by decide) (by rfl) (by decide) (by decide) (by decide)).1
    (.leaf { parentPageId := 1, maxSize := 4,
             entries := [(1, 10), (2, 20), (5, 50)], nextPageId := 3 })
    (by decide) (by rfl) (by decide)
  simpa using h

/-! ## Insertion -/

/-- Modelled from the spec: ordered insertion into a leaf's entry array
(helper for `LeafNode.insert`); no effect when the key is already present. -/
def insertSorted (k : Key) (v : RID) : List (Key × RID) → List (Key × RID)
  | [] => [(k, v)]
  | e :: es =>
    if k < e.1 then (k, v) :: e :: es
    else if k = e.1 then e :: es
    else e :: insertSorted k v es

/-- Modelled from the spec: `insert(k, v) → new_size` — "inserts in order;
no-op if `k` already present (caller must detect via unchanged size)". -/
def LeafNode.insert (l : LeafNode) (k : Key) (v : RID) : LeafNode × Nat :=
  let es := insertSorted k v l.entries
  ({ l with entries := es }, es.length)

/-- Modelled from the spec: `move_half_to(sibling)` for leaves — "moves the
upper half (entries `⌈size/2⌉ …`) to sibling; updates sibling's next_leaf to
current's next, current's next_leaf to sibling". -/
def LeafNode.moveHalfTo (l recipient : LeafNode) (recipientId : PageId) :
    LeafNode × LeafNode :=
  let keep := (l.entries.length + 1) / 2
  ({ l with entries := l.entries.take keep, nextPageId := recipientId },
   { recipient with entries := recipient.entries ++ l.entries.drop keep,
                    nextPageId := l.nextPageId })

/-- `Split` instantiated at a leaf (`b_plus_tree.cpp:150`): ask the buffer pool
for a new page, `Init` it with the same parent, move the upper half across. -/
def SplitLeaf (st : BPTState) (nodeId : PageId) : Option (BPTState × PageId) :=
  match getPage st.pages nodeId with
  | some (.leaf l) =>
    let pid := st.nextPageId
    let fresh : LeafNode :=
      { parentPageId := l.parentPageId, maxSize := st.leafMax, entries := [],
        nextPageId := INVALID_PAGE_ID }
    let lr := l.moveHalfTo fresh pid
    let pgs := setPage (addPage st.pages pid (.leaf lr.2)) nodeId (.leaf lr.1)
    some ({ st with pages := pgs, nextPageId := st.nextPageId + 1 }, pid)
  | _ => none

/-- Modelled from the spec: `move_half_to(sibling, buffer_pool)` for internal
nodes — move the upper half; "for each moved child, rewrite its
`parent_page_id` to sibling" (the moved children are returned for
re-parenting). -/
def InternalNode.moveHalfTo (ip recipient : InternalNode) :
    InternalNode × InternalNode × List PageId :=
  let keep := (ip.entries.length + 1) / 2
  let moved := ip.entries.drop keep
  ({ ip with entries := ip.entries.take keep },
   { recipient with entries := recipient.entries ++ moved },
   moved.map Prod.snd)

/-- `Split` instantiated at an internal node (`b_plus_tree.cpp:150`). -/
def SplitInternal (st : BPTState) (nodeId : PageId) : Option (BPTState × PageId) :=
  match getPage st.pages nodeId with
  | some (.internal ip) =>
    let pid := st.nextPageId
    let fresh : InternalNode :=
      { parentPageId := ip.parentPageId, maxSize := st.internalMax, entries := [] }
    let r := ip.moveHalfTo fresh
    let pgs := setPage (addPage st.pages pid (.internal r.2.1)) nodeId (.internal r.1)
    some ({ st with pages := reparentAll pgs r.2.2 pid,
                    nextPageId := st.nextPageId + 1 }, pid)
  | _ => none

/-- Modelled from the spec: `populate_new_root(left, k, right)` "produces
`[(∅, left), (k, right)]`" (the entry-0 key is unused; the model stores 0). -/
def InternalNode.populateNewRoot (ip : InternalNode) (l : PageId) (k : Key)
    (r : PageId) : InternalNode :=
  { ip with entries := [(0, l), (k, r)] }

/-- Insert `(k, new_child)` immediately after the entry referencing
`old_child` (helper for `InternalNode.insertNodeAfter`). -/
def insertAfterChild (oldId : PageId) (k : Key) (newId : PageId) :
    List (Key × PageId) → List (Key × PageId)
  | [] => []
  | e :: es =>
    if e.2 == oldId then e :: (k, newId) :: es
    else e :: insertAfterChild oldId k newId es

/-- Modelled from the spec: `insert_node_after(old_child, k, new_child)`. -/
def InternalNode.insertNodeAfter (ip : InternalNode) (oldId : PageId) (k : Key)
    (newId : PageId) : InternalNode :=
  { ip with entries := insertAfterChild oldId k newId ip.entries }

/-- `InsertIntoParent` (`b_plus_tree.cpp:175`): when the split node was the
root, grow a new root (`PopulateNewRoot`; the new root id is published and
persisted with `insert_record = false`); otherwise insert the separator into
the parent after the old child, split the parent if it now exceeds `max_size`,
and recurse with the first key of the new right node. -/
def InsertIntoParent (st : BPTState) (oldId : PageId) (key : Key)
    (newId : PageId) : Nat → Option BPTState
  | 0 => none
  | Nat.succ fuel =>
    match getPage st.pages oldId with
    | none => none
    | some oldNode =>
      if oldNode.parentPageId = INVALID_PAGE_ID then
        let pid := st.nextPageId
        let ip0 : InternalNode :=
          { parentPageId := INVALID_PAGE_ID, maxSize := st.internalMax,
            entries := [] }
        let st₁ := { st with pages := addPage st.pages pid (.internal ip0),
                             nextPageId := st.nextPageId + 1,
                             rootPageId := pid }
        let st₂ := UpdateRootPageId st₁ false
        let st₃ := { st₂ with pages := reparent (reparent st₂.pages oldId pid) newId pid }
        match getPage st₃.pages pid with
        | some (.internal ip) =>
          some { st₃ with pages := setPage st₃.pages pid (.internal (ip.populateNewRoot oldId key newId)) }
        | _ => none
      else
        match getPage st.pages oldNode.parentPageId with
        | some (.internal ip) =>
          let ip' := ip.insertNodeAfter oldId key newId
          let st₁ := { st with pages := setPage st.pages oldNode.parentPageId (.internal ip') }
          if ip'.entries.length > ip'.maxSize then
            match SplitInternal st₁ oldNode.parentPageId with
            | none => none
            | some (st₂, newIpId) =>
              match getPage st₂.pages newIpId with
              | some (.internal newIp) =>
                InsertIntoParent st₂ oldNode.parentPageId (newIp.keyAt 0) newIpId fuel
              | _ => none
          else some st₁
        | _ => none

/-- `InsertIntoLeaf` (`b_plus_tree.cpp:113`): crab down in insert mode; a null
leaf pointer (empty tree) returns `false`; `Insert` into the leaf; past
`max_size` the leaf is split and the largest key of the left (original) leaf
after the move is handed to `InsertIntoParent`; the work set is drained and
`original_size != new_size` returned. -/
def InsertIntoLeaf (st : BPTState) (key : Key) (v : RID) (txn : Bool)
    (fuel : Nat) : Option (BPTState × Bool × List PageId) :=
  match GetLeafPage st key txn 1 fuel with
  | none => none
  | some .null => some (st, false, [])
  | some (.found leafId _ws) =>
    match getPage st.pages leafId with
    | some (.leaf l) =>
      let originalSize := l.entries.length
      let li := l.insert key v
      let st₁ := { st with pages := setPage st.pages leafId (.leaf li.1) }
      if li.2 > l.maxSize then
        match SplitLeaf st₁ leafId with
        | none => none
        | some (st₂, newId) =>
          match getPage st₂.pages leafId with
          | some (.leaf old') =>
            match InsertIntoParent st₂ leafId (old'.keyAt (old'.entries.length - 1)) newId fuel with
            | none => none
            | some st₃ => some (st₃, originalSize != li.2, [])
          | _ => none
      else some (st₁, originalSize != li.2, [])
    | _ => none

/-- `StartNewTree` (`b_plus_tree.cpp:84`): allocate and `Init` a fresh leaf,
unpin it, and compare-and-set `root_page_id_` from `INVALID_PAGE_ID` to the
new page id; on success persist the root through the header page with
`insert_record = true`, on a lost race delete the allocated page.  Either way
insertion proceeds through `InsertIntoLeaf`. -/
def StartNewTree (st : BPTState) (key : Key) (v : RID) (txn : Bool)
    (fuel : Nat) : Option (BPTState × Bool × List PageId) :=
  let pid := st.nextPageId
  let lp : LeafNode :=
    { parentPageId := INVALID_PAGE_ID, maxSize := st.leafMax, entries := [],
      nextPageId := INVALID_PAGE_ID }
  let st₁ := { st with pages := addPage st.pages pid (.leaf lp),
                       nextPageId := st.nextPageId + 1 }
  if st₁.rootPageId = INVALID_PAGE_ID then
    let st₂ := UpdateRootPageId { st₁ with rootPageId := pid } true
    InsertIntoLeaf st₂ key v txn fuel
  else
    InsertIntoLeaf { st₁ with pages := delPage st₁.pages pid } key v txn fuel

/-- `Insert` (`b_plus_tree.cpp:65`): an empty tree goes through `StartNewTree`
(whose inner insertion result is discarded: `Insert` returns `true`);
otherwise through `InsertIntoLeaf`. -/
def Insert (st : BPTState) (key : Key) (v : RID) (txn : Bool) (fuel : Nat) :
    Option (BPTState × Bool × List PageId) :=
  if st.rootPageId = INVALID_PAGE_ID then
    (StartNewTree st key v txn fuel).map (fun r => (r.1, true, r.2.2))
  else InsertIntoLeaf st key v txn fuel

/-! ## The stored key set -/

/-- The `(key, value)` pairs a page contributes to the map: leaf entries. -/
def leafPairsOf : Node → List (Key × RID)
  | .leaf l => l.entries
  | .internal _ => []

/-- All `(key, value)` pairs stored in the tree's leaves. -/
def treePairs (st : BPTState) : List (Key × RID) :=
  st.pages.flatMap (fun p => leafPairsOf p.2)

/-- The stored key set. -/
def treeKeys (st : BPTState) : List Key := (treePairs st).map Prod.fst

theorem mem_treeKeys_of_leaf {st : BPTState} {pid : PageId} {l : LeafNode}
    {k : Key} (hget : getPage st.pages pid = some (.leaf l))
    (hk : k ∈ l.entries.map Prod.fst) : k ∈ treeKeys st := by
  obtain ⟨e, he, hek⟩ := List.mem_map.mp hk
  refine List.mem_map.mpr ⟨e, ?_, hek⟩
  exact List.mem_flatMap.mpr ⟨(pid, .leaf l), getPage_mem hget, he⟩

theorem filter_absent {es : List (Key × RID)} {k : Key}
    (h : k ∉ es.map Prod.fst) :
    es.filter (fun e => ¬ e.1 = k) = es := by
  apply List.filter_eq_self.mpr
  intro e he
  have hne : e.1 ≠ k := fun hh => h (List.mem_map.mpr ⟨e, he, hh⟩)
  simpa using hne

/-- C3: removing an absent key is a silent no-op: on any state whose page ids
are distinct, when the key is not among the stored keys, `Remove` returns the
state completely unchanged — same pages, same structure, same
`root_page_id` — and an empty (drained) work set.  The validity hypothesis is
either an empty tree or a successful delete-mode descent to a leaf that
respects its minimum size. -/
theorem remove_absent_key_noop
    (st : BPTState) (key : Key) (txn : Bool) (fuel : Nat)
    (hnodup : (st.pages.map Prod.fst).Nodup)
    (habsent : key ∉ treeKeys st)
    (hvalid : st.rootPageId = INVALID_PAGE_ID ∨
      ∃ leafId ws l, GetLeafPage st key txn 2 fuel = some (.found leafId ws) ∧
        getPage st.pages leafId = some (.leaf l) ∧
        (Node.leaf l).minSize ≤ l.entries.length) :
    Remove st key txn fuel = some (st, []) := by
  rcases hvalid with hempty | ⟨leafId, ws, l, hdesc, hleaf, hmin⟩
  · simp [Remove, hempty]
  · have hroot : ¬ st.rootPageId = INVALID_PAGE_ID := by
      intro h
      simp [GetLeafPage, h] at hdesc
    have hknotin : key ∉ l.entries.map Prod.fst :=
      fun hk => habsent (mem_treeKeys_of_leaf hleaf hk)
    have hfilter : l.entries.filter (fun e => ¬ e.1 = key) = l.entries :=
      filter_absent hknotin
    have hrd1 : (l.removeAndDelete key).1 = l := by
      show ({ l with entries := l.entries.filter (fun e => ¬ e.1 = key) } : LeafNode) = l
      rw [hfilter]
    have hrd2 : (l.removeAndDelete key).2 = l.entries.length := by
      show (l.entries.filter (fun e => ¬ e.1 = key)).length = l.entries.length
      rw [hfilter]
    have hset : setPage st.pages leafId (.leaf l) = st.pages :=
      setPage_self hnodup hleaf
    simp only [Remove, if_neg hroot, hdesc, hleaf, hrd1, hrd2]
    rw [if_neg (by omega)]
    rw [hset]

/-- Witness for C3: removing the absent key `5` from the concrete one-leaf
tree returns the identical state. -/
theorem remove_absent_key_noop_witness :
    Remove oneLeafState 5 true 2 = some (oneLeafState, []) := by
  apply remove_absent_key_noop oneLeafState 5 true 2 (by decide) (by decide)
  refine Or.inr ⟨2, [2],
    { parentPageId := INVALID_PAGE_ID, maxSize := 4,
      entries := [(1, 10)], nextPageId := INVALID_PAGE_ID }, ?_, ?_, ?_⟩
  · rfl
  · rfl
  · decide

/-- Witness for C1: on a root leaf holding one entry, `AdjustRoot` returns
`false` and changes nothing; the equivalences specialise accordingly. -/
theorem adjustRoot_empties_tree_iff_size_zero_witness :
    AdjustRoot oneLeafState 2 = some (oneLeafState, false) := by
  have h := adjustRoot_empties_tree_iff_size_zero oneLeafState 2
    { parentPageId := INVALID_PAGE_ID, maxSize := 4,
      entries := [(1, 10)], nextPageId := INVALID_PAGE_ID }
    (by rfl) (by rfl)
  exact h.2.2 (by decide)


/-! ## Work-set boundaries (C10) and root persistence (C7) -/

theorem insertIntoLeaf_ws_empty {st : BPTState} {key : Key} {v : RID}
    {txn : Bool} {fuel : Nat} {r : BPTState × Bool × List PageId}
    (h : InsertIntoLeaf st key v txn fuel = some r) : r.2.2 = [] := by
  unfold InsertIntoLeaf at h
  repeat' first
    | split at h
    | simp only [] at h
  all_goals first
    | exact Option.noConfusion h
    | (injection h with h2; subst h2; rfl)

theorem startNewTree_ws_empty {st : BPTState} {key : Key} {v : RID}
    {txn : Bool} {fuel : Nat} {r : BPTState × Bool × List PageId}
    (h : StartNewTree st key v txn fuel = some r) : r.2.2 = [] := by
  unfold StartNewTree at h
  repeat' first
    | split at h
    | simp only [] at h
  all_goals exact insertIntoLeaf_ws_empty h

/-- C10: the transaction work-set boundary.  Each public operation starts its
descent from an empty transaction page set (the entry assertion) and drains
the work set through `clearTxnWorkSet` on every completed exit path, so the
page set is empty again when `GetValue`, `Insert`, or `Remove` returns (the
exit assertion). -/
theorem txn_page_set_boundary (st : BPTState) (key : Key) (v : RID) (fuel : Nat) :
    (∀ b ws, GetValue st key true fuel = some (b, ws) → ws = []) ∧
    (∀ st' b ws, Insert st key v true fuel = some (st', b, ws) → ws = []) ∧
    (∀ st' ws, Remove st key true fuel = some (st', ws) → ws = []) := by
  refine ⟨?_, ?_, ?_⟩
  · intro b ws h
    unfold GetValue at h
    repeat' first
      | split at h
      | simp only [] at h
    all_goals first
      | exact Option.noConfusion h
      | (injection h with h2; injection h2 with ha hb; subst hb; rfl)
  · intro st' b ws h
    unfold Insert at h
    split at h
    · rcases hsn : StartNewTree st key v true fuel with _ | r
      · rw [hsn] at h
        exact Option.noConfusion h
      · rw [hsn] at h
        injection h with h2
        injection h2 with ha hb
        injection hb with hb1 hb2
        subst hb2
        exact startNewTree_ws_empty hsn
    · exact insertIntoLeaf_ws_empty h
  · intro st' ws h
    unfold Remove at h
    repeat' first
      | split at h
      | simp only [] at h
    all_goals first
      | exact Option.noConfusion h
      | (injection h with h2; injection h2 with ha hb; subst hb; rfl)

/-- Witness for C10: a transactional `GetValue` on the concrete one-leaf tree
finishes with the drained, empty page set. -/
theorem txn_page_set_boundary_witness :
    GetValue oneLeafState 1 true 2 = some (true, []) ∧ ([] : List PageId) = [] :=
  ⟨by rfl, (txn_page_set_boundary oneLeafState 1 99 2).1 true [] (by rfl)⟩

theorem updateRecord_length (recs : List (String × PageId)) (name : String)
    (v : PageId) : (updateRecord recs name v).length = recs.length := by
  simp [updateRecord]

theorem delPage_addPage_fresh {pages : Pages} {pid : PageId} {n : Node}
    (h : pid ∉ pages.map Prod.fst) : delPage (addPage pages pid n) pid = pages := by
  unfold delPage addPage
  rw [List.filter_append]
  have h1 : pages.filter (fun p => ¬ p.1 = pid) = pages := by
    apply List.filter_eq_self.mpr
    intro p hp
    have hne : p.1 ≠ pid := fun hh => h (List.mem_map.mpr ⟨p, hp, hh⟩)
    simpa using hne
  rw [h1]
  simp

theorem splitInternal_header {st : BPTState} {nid : PageId} {st₂ : BPTState}
    {pid : PageId} (h : SplitInternal st nid = some (st₂, pid)) :
    st₂.header = st.header := by
  unfold SplitInternal at h
  repeat' first
    | split at h
    | simp only [] at h
  all_goals first
    | exact Option.noConfusion h
    | (injection h with h2; injection h2 with ha hb; subst ha; rfl)

theorem adjustRoot_header_length {st : BPTState} {rid : PageId}
    {r : BPTState × Bool} (h : AdjustRoot st rid = some r) :
    r.1.header.length = st.header.length := by
  unfold AdjustRoot at h
  repeat' first
    | split at h
    | simp only [] at h
  all_goals first
    | exact Option.noConfusion h
    | (injection h with h2; subst h2;
       simp [UpdateRootPageId, updateRecord])

theorem insertIntoParent_header_length :
    ∀ (fuel : Nat) (st : BPTState) (oldId : PageId) (key : Key) (newId : PageId)
      (st' : BPTState), InsertIntoParent st oldId key newId fuel = some st' →
      st'.header.length = st.header.length := by
  intro fuel
  induction fuel with
  | zero =>
    intro st oldId key newId st' h
    exact Option.noConfusion h
  | succ fuel ih =>
    intro st oldId key newId st' h
    unfold InsertIntoParent at h
    repeat' first
      | split at h
      | simp only [] at h
    all_goals first
      | exact Option.noConfusion h
      | (injection h with h2; subst h2;
         simp [UpdateRootPageId, updateRecord])
      | (injection h with h2; subst h2; rfl)
      | (rw [ih _ _ _ _ _ h, splitInternal_header (by assumption)])

/-- C7: insertion on an empty tree and root persistence.  (1) With
`root_page_id = INVALID_PAGE_ID`, `StartNewTree` allocates and initialises a
fresh empty leaf, the compare-and-set succeeds, the new root is persisted by
*inserting* a header record, and insertion proceeds on the installed tree.
(2) When the CAS loses (`root_page_id` no longer invalid), the allocated page
is deleted again — the page pool is exactly as before — no header record is
written, and the insert proceeds as a non-empty insert.  (3) All later root
changes (`InsertIntoParent` growing a new root, `AdjustRoot`) persist with
`insert_record = false`: they update the existing record and never change the
number of header records. -/
theorem startNewTree_cas_and_persistence
    (st : BPTState) (key : Key) (v : RID) (txn : Bool) (fuel : Nat) :
    (st.rootPageId = INVALID_PAGE_ID →
      StartNewTree st key v txn fuel =
        InsertIntoLeaf
          { st with
            pages := addPage st.pages st.nextPageId
              (.leaf { parentPageId := INVALID_PAGE_ID, maxSize := st.leafMax,
                       entries := [], nextPageId := INVALID_PAGE_ID }),
            nextPageId := st.nextPageId + 1,
            rootPageId := st.nextPageId,
            header := st.header ++ [(st.indexName, st.nextPageId)] }
          key v txn fuel) ∧
    (¬ st.rootPageId = INVALID_PAGE_ID → st.nextPageId ∉ st.pages.map Prod.fst →
      StartNewTree st key v txn fuel =
        InsertIntoLeaf { st with nextPageId := st.nextPageId + 1 } key v txn fuel) ∧
    (∀ (st₀ : BPTState) (rid : PageId) (r : BPTState × Bool),
      AdjustRoot st₀ rid = some r → r.1.header.length = st₀.header.length) ∧
    (∀ (f : Nat) (st₀ : BPTState) (oldId : PageId) (k : Key) (newId : PageId)
      (st' : BPTState), InsertIntoParent st₀ oldId k newId f = some st' →
      st'.header.length = st₀.header.length) := by
  refine ⟨?_, ?_, ?_, ?_⟩
  · intro hempty
    unfold StartNewTree
    rw [if_pos (by exact hempty)]
    rfl
  · intro hne hfresh
    unfold StartNewTree
    rw [if_neg (by exact hne)]
    have hdel :
        delPage (addPage st.pages st.nextPageId
          (.leaf { parentPageId := INVALID_PAGE_ID, maxSize := st.leafMax,
                   entries := [], nextPageId := INVALID_PAGE_ID })) st.nextPageId
          = st.pages := delPage_addPage_fresh hfresh
    rw [hdel]
  · intro st₀ rid r h
    exact adjustRoot_header_length h
  · intro f st₀ oldId k newId st' h
    exact insertIntoParent_header_length f st₀ oldId k newId st' h

/-- Witness for C7: inserting into the concrete empty tree installs page 1 as
the root leaf and appends the single header record. -/
theorem startNewTree_cas_and_persistence_witness :
    StartNewTree emptyState 5 55 false 2 =
      InsertIntoLeaf
        { emptyState with
          pages := addPage emptyState.pages 1
            (.leaf { parentPageId := INVALID_PAGE_ID, maxSize := 4,
                     entries := [], nextPageId := INVALID_PAGE_ID }),
          nextPageId := 2,
          rootPageId := 1,
          header := [("idx", 1)] }
        5 55 false 2 :=
  (startNewTree_cas_and_persistence emptyState 5 55 false 2).1 (by decide)


/-! ## Pin accounting for `Begin` (C4) -/

/-- Pin-count deltas per page id, relative to the pre-operation counts. -/
def bumpPin (pins : List (PageId × Int)) (pid : PageId) (d : Int) :
    List (PageId × Int) :=
  match pins.find? (fun p => p.1 == pid) with
  | some _ => pins.map (fun p => if p.1 == pid then (pid, p.2 + d) else p)
  | none => pins ++ [(pid, d)]

/-- `Begin()` (`b_plus_tree.cpp:468`) with explicit pin accounting: `GetPage`
fetches the root (pin + 1) and then each `child_0` down to the leftmost leaf
(pin + 1 each); no page is ever unpinned before the iterator is constructed
from the leaf's page id. -/
def BeginPins (st : BPTState) : Nat → PageId → List (PageId × Int) →
    Option (PageId × List (PageId × Int))
  | 0, _, _ => none
  | Nat.succ fuel, pid, pins =>
    match getPage st.pages pid with
    | none => none
    | some n =>
      let pins' := bumpPin pins pid 1
      match n with
      | .leaf _ => some (pid, pins')
      | .internal ip => BeginPins st fuel (ip.valueAt 0) pins'

/-- `Begin()` from the root, starting at balanced (all-zero) pin deltas. -/
def Begin (st : BPTState) (fuel : Nat) : Option (PageId × List (PageId × Int)) :=
  BeginPins st fuel st.rootPageId []

/-- C4 (code bug): pin balance fails for `Begin()`.  On the concrete one-leaf
tree, `Begin` fetches the root leaf (page 2) once and returns without any
matching `unpin_page`, so the page's pin count ends one above its
pre-operation value — `fetch_page` is not matched by exactly one `unpin_page`.
(Contrast `Begin(key)`, which does unpin at `b_plus_tree.cpp:487`.) -/
theorem begin_leaks_pins :
    Begin oneLeafState 2 = some (2, [(2, 1)]) ∧ (1 : Int) ≠ 0 := by
  constructor
  · rfl
  · decide

/-! ## Sorted key lists -/

/-- Strictly ascending key list — the §3 ordering invariant "keys strictly
increasing within every node". -/
def keysSorted : List Key → Bool
  | [] => true
  | [_] => true
  | a :: b :: rest => decide (a < b) && keysSorted (b :: rest)

theorem keysSorted_cons_of {a : Key} {rest : List Key}
    (h : keysSorted (a :: rest) = true) : keysSorted rest = true := by
  cases rest with
  | nil => rfl
  | cons b t =>
    simp only [keysSorted, Bool.and_eq_true] at h
    exact h.2

theorem keysSorted_head_lt {a : Key} {rest : List Key}
    (h : keysSorted (a :: rest) = true) : ∀ k ∈ rest, a < k := by
  induction rest generalizing a with
  | nil => intro k hk; cases hk
  | cons b t ih =>
    intro k hk
    simp only [keysSorted, Bool.and_eq_true, decide_eq_true_eq] at h
    rcases List.mem_cons.mp hk with rfl | hk'
    · exact h.1
    · exact lt_trans h.1 (ih h.2 k hk')

theorem insertSorted_perm_of_not_mem {k : Key} {v : RID} :
    ∀ {es : List (Key × RID)}, k ∉ es.map Prod.fst →
      (insertSorted k v es).Perm ((k, v) :: es) := by
  intro es
  induction es with
  | nil => intro _; simp [insertSorted]
  | cons e rest ih =>
    intro hmem
    simp only [List.map_cons, List.mem_cons, not_or] at hmem
    unfold insertSorted
    by_cases h1 : k < e.1
    · rw [if_pos h1]
    · rw [if_neg h1, if_neg hmem.1]
      exact (List.Perm.cons e (ih hmem.2)).trans (List.Perm.swap (k, v) e rest)

theorem mem_insertSorted_map_fst {k x : Key} {v : RID} :
    ∀ {es : List (Key × RID)}, x ∈ (insertSorted k v es).map Prod.fst →
      x = k ∨ x ∈ es.map Prod.fst := by
  intro es
  induction es with
  | nil =>
    intro h
    simp only [insertSorted, List.map_cons, List.map_nil, List.mem_singleton] at h
    exact Or.inl h
  | cons e rest ih =>
    intro h
    unfold insertSorted at h
    by_cases h1 : k < e.1
    · rw [if_pos h1] at h
      simp only [List.map_cons, List.mem_cons] at h
      rcases h with h | h | h
      · exact Or.inl h
      · exact Or.inr (by simp [h])
      · exact Or.inr (by simp [h])
    · by_cases h2 : k = e.1
      · rw [if_neg h1, if_pos h2] at h
        exact Or.inr h
      · rw [if_neg h1, if_neg h2] at h
        simp only [List.map_cons, List.mem_cons] at h
        rcases h with h | h
        · exact Or.inr (by simp [h])
        · rcases ih h with h | h
          · exact Or.inl h
          · exact Or.inr (by simp [h])

theorem insertSorted_eq_of_mem {k : Key} {v : RID} :
    ∀ {es : List (Key × RID)}, keysSorted (es.map Prod.fst) = true →
      k ∈ es.map Prod.fst → insertSorted k v es = es := by
  intro es
  induction es with
  | nil => intro _ hmem; cases hmem
  | cons e rest ih =>
    intro hs hmem
    unfold insertSorted
    have hmem' : k = e.1 ∨ k ∈ rest.map Prod.fst := by
      simpa using hmem
    rcases hmem' with heq | hmem'
    · rw [if_neg (show ¬ k < e.1 by rw [heq]; exact lt_irrefl e.1), if_pos heq]
    · have hlt : e.1 < k := keysSorted_head_lt (by simpa using hs) k hmem'
      rw [if_neg (lt_asymm hlt), if_neg (ne_of_gt hlt)]
      rw [ih (keysSorted_cons_of (a := e.1) (by simpa using hs)) hmem']

theorem insertSorted_sorted {k : Key} {v : RID} :
    ∀ {es : List (Key × RID)}, keysSorted (es.map Prod.fst) = true →
      keysSorted ((insertSorted k v es).map Prod.fst) = true := by
  intro es
  induction es with
  | nil => intro _; rfl
  | cons e rest ih =>
    intro hs
    have hs' : keysSorted (e.1 :: rest.map Prod.fst) = true := by simpa using hs
    unfold insertSorted
    by_cases h1 : k < e.1
    · rw [if_pos h1]
      simp only [List.map_cons, keysSorted, Bool.and_eq_true, decide_eq_true_eq]
      exact ⟨h1, hs'⟩
    · by_cases h2 : k = e.1
      · rw [if_neg h1, if_pos h2]
        exact hs
      · rw [if_neg h1, if_neg h2]
        have hgt : e.1 < k :=
          lt_of_le_of_ne (not_lt.mp h1) (fun hh => h2 hh.symm)
        have hst : keysSorted ((insertSorted k v rest).map Prod.fst) = true :=
          ih (keysSorted_cons_of hs')
        have hhead : ∀ x ∈ (insertSorted k v rest).map Prod.fst, e.1 < x := by
          intro x hx
          rcases mem_insertSorted_map_fst hx with rfl | hx'
          · exact hgt
          · exact keysSorted_head_lt hs' x hx'
        cases hins : (insertSorted k v rest).map Prod.fst with
        | nil => simp [List.map_cons, hins, keysSorted]
        | cons x xs =>
          simp only [List.map_cons, hins, keysSorted, Bool.and_eq_true,
            decide_eq_true_eq]
          refine ⟨hhead x (hins ▸ List.mem_cons_self x xs), ?_⟩
          rw [← hins]
          exact hst


/-! ## Separator keys after a split (C6) -/

theorem getPage_some_mem_fst {pages : Pages} {pid : PageId} {n : Node}
    (h : getPage pages pid = some n) : pid ∈ pages.map Prod.fst :=
  List.mem_map.mpr ⟨(pid, n), getPage_mem h, rfl⟩

theorem getPage_none_of_not_mem {pages : Pages} {pid : PageId}
    (h : pid ∉ pages.map Prod.fst) : getPage pages pid = none := by
  induction pages with
  | nil => rfl
  | cons q rest ih =>
    simp only [List.map_cons, List.mem_cons, not_or] at h
    rw [getPage_cons]
    have h1 : (q.1 == pid) = false := beq_eq_false_iff_ne.mpr (fun hh => h.1 hh.symm)
    simp only [h1, Bool.false_eq_true, if_false]
    exact ih h.2

theorem reparent_getPage_ne {pages : Pages} {cid p q : PageId} (h : q ≠ cid) :
    getPage (reparent pages cid p) q = getPage pages q := by
  unfold reparent
  rcases hg : getPage pages cid with _ | n
  · rfl
  · exact getPage_setPage_ne h

theorem reparentAll_getPage_not_mem {p q : PageId} :
    ∀ (cids : List PageId) (pages : Pages), q ∉ cids →
      getPage (reparentAll pages cids p) q = getPage pages q := by
  intro cids
  induction cids with
  | nil => intro pages _; rfl
  | cons c rest ih =>
    intro pages hq
    simp only [List.mem_cons, not_or] at hq
    unfold reparentAll
    simp only [List.foldl_cons]
    have hstep := ih (reparent pages c p) hq.2
    unfold reparentAll at hstep
    rw [hstep]
    exact reparent_getPage_ne hq.1

theorem keysSorted_take :
    ∀ (ks : List Key) (m : Nat), keysSorted ks = true →
      keysSorted (ks.take m) = true := by
  intro ks
  induction ks with
  | nil => intro m _; simp [keysSorted]
  | cons a t ih =>
    intro m hs
    cases m with
    | zero => rfl
    | succ m' =>
      cases t with
      | nil => simp [keysSorted]
      | cons b t' =>
        simp only [keysSorted, Bool.and_eq_true, decide_eq_true_eq] at hs
        cases m' with
        | zero => rfl
        | succ m'' =>
          have hrec := ih (m'' + 1) hs.2
          simp only [List.take_succ_cons]
          simp only [List.take_succ_cons] at hrec
          simp only [keysSorted, Bool.and_eq_true, decide_eq_true_eq]
          exact ⟨hs.1, hrec⟩

theorem keyAt_last_max :
    ∀ (es : List (Key × RID)), keysSorted (es.map Prod.fst) = true → es ≠ [] →
      ((es.get? (es.length - 1)).map Prod.fst).getD 0 ∈ es.map Prod.fst ∧
      ∀ k ∈ es.map Prod.fst,
        k ≤ ((es.get? (es.length - 1)).map Prod.fst).getD 0 := by
  intro es
  induction es with
  | nil => intro _ hne; exact absurd rfl hne
  | cons e t ih =>
    intro hs _
    cases t with
    | nil =>
      refine ⟨by simp, ?_⟩
      intro k hk
      simp only [List.map_cons, List.map_nil, List.mem_singleton] at hk
      simp [hk]
    | cons e2 t' =>
      have hs' : keysSorted ((e2 :: t').map Prod.fst) = true :=
        keysSorted_cons_of (a := e.1) (by simpa using hs)
      have hlen : (e :: e2 :: t').length - 1 = (e2 :: t').length := rfl
      have hget : (e :: e2 :: t').get? ((e2 :: t').length) =
          (e2 :: t').get? ((e2 :: t').length - 1) := by
        simp only [List.length_cons]
        rfl
      obtain ⟨hmem, hmax⟩ := ih hs' (by simp)
      rw [hlen, hget]
      constructor
      · exact List.mem_cons_of_mem e.1 hmem
      · intro k hk
        have hk2 : k = e.1 ∨ k ∈ (e2 :: t').map Prod.fst := by
          simpa only [List.map_cons, List.mem_cons] using hk
        rcases hk2 with rfl | hk'
        · have hhd := @keysSorted_head_lt e.1
            ((e2 :: t').map Prod.fst) (by simpa using hs)
          exact le_of_lt (hhd _ hmem)
        · exact hmax k hk'

/-- C6: separator keys after a split.  (1) When a leaf overflows,
`InsertIntoLeaf` splits it and the key handed to `InsertIntoParent` is
`KeyAt(size - 1)` of the left (original) leaf after the move — a member of the
left leaf's keys that bounds them all from above, i.e. its largest key.
(2) When an internal node overflows, `InsertIntoParent` splits it and recurses
with `KeyAt(0)` of the new right node — the first key of the upper half that
moved. -/
theorem split_separator_keys :
    (∀ (st : BPTState) (key : Key) (v : RID) (txn : Bool) (fuel : Nat)
        (leafId : PageId) (ws : List PageId) (l : LeafNode),
      GetLeafPage st key txn 1 fuel = some (.found leafId ws) →
      getPage st.pages leafId = some (.leaf l) →
      keysSorted (l.entries.map Prod.fst) = true →
      (insertSorted key v l.entries).length > l.maxSize →
      st.nextPageId ∉ st.pages.map Prod.fst →
      ∃ st₂ old',
        SplitLeaf { st with pages := setPage st.pages leafId (.leaf (l.insert key v).1) }
            leafId = some (st₂, st.nextPageId) ∧
        getPage st₂.pages leafId = some (.leaf old') ∧
        InsertIntoLeaf st key v txn fuel =
          (InsertIntoParent st₂ leafId (old'.keyAt (old'.entries.length - 1))
              st.nextPageId fuel).map
            (fun st₃ => (st₃, l.entries.length != (l.insert key v).2, [])) ∧
        old'.keyAt (old'.entries.length - 1) ∈ old'.entries.map Prod.fst ∧
        (∀ k ∈ old'.entries.map Prod.fst,
          k ≤ old'.keyAt (old'.entries.length - 1))) ∧
    (∀ (st₀ : BPTState) (oldId : PageId) (k : Key) (newId : PageId)
        (fuel : Nat) (oldNode : Node) (ip : InternalNode),
      getPage st₀.pages oldId = some oldNode →
      ¬ oldNode.parentPageId = INVALID_PAGE_ID →
      getPage st₀.pages oldNode.parentPageId = some (.internal ip) →
      (ip.insertNodeAfter oldId k newId).entries.length > ip.maxSize →
      st₀.nextPageId ∉ st₀.pages.map Prod.fst →
      st₀.nextPageId ∉ (ip.insertNodeAfter oldId k newId).entries.map Prod.snd →
      ∃ st₂ newIp,
        SplitInternal
            { st₀ with pages := setPage st₀.pages oldNode.parentPageId (.internal (ip.insertNodeAfter oldId k newId)) }
            oldNode.parentPageId = some (st₂, st₀.nextPageId) ∧
        getPage st₂.pages st₀.nextPageId = some (.internal newIp) ∧
        newIp.entries = (ip.insertNodeAfter oldId k newId).entries.drop
          (((ip.insertNodeAfter oldId k newId).entries.length + 1) / 2) ∧
        InsertIntoParent st₀ oldId k newId (fuel + 1) =
          InsertIntoParent st₂ oldNode.parentPageId (newIp.keyAt 0)
            st₀.nextPageId fuel) := by
  constructor
  · intro st key v txn fuel leafId ws l hdesc hleaf hsorted hover hfresh
    have hleafmem : leafId ∈ st.pages.map Prod.fst := getPage_some_mem_fst hleaf
    have hne : leafId ≠ st.nextPageId := fun hh => hfresh (hh ▸ hleafmem)
    set li1 := (l.insert key v).1 with hli1
    have hli1e : li1.entries = insertSorted key v l.entries := rfl
    set st₁ := { st with pages := setPage st.pages leafId (.leaf li1) } with hst₁
    set fr : LeafNode := { parentPageId := li1.parentPageId, maxSize := st.leafMax, entries := [], nextPageId := INVALID_PAGE_ID } with hfr
    set mv := li1.moveHalfTo fr st.nextPageId with hmv
    set st₂ := { st with pages := setPage (addPage st₁.pages st.nextPageId (.leaf mv.2)) leafId (.leaf mv.1), nextPageId := st.nextPageId + 1 } with hst₂
    have hget1 : getPage st₁.pages leafId = some (.leaf li1) :=
      getPage_setPage_self hleaf
    have hsplit : SplitLeaf st₁ leafId = some (st₂, st.nextPageId) := by
      unfold SplitLeaf
      rw [hget1]
    have hget2 : getPage st₂.pages leafId = some (.leaf mv.1) := by
      rw [hst₂]
      apply getPage_setPage_self (m := .leaf li1)
      rw [getPage_addPage_ne hne]
      exact hget1
    have hkeys : mv.1.entries.map Prod.fst =
        ((insertSorted key v l.entries).map Prod.fst).take
          (((insertSorted key v l.entries).length + 1) / 2) := by
      rw [hmv]
      simp only [LeafNode.moveHalfTo, hli1e]
      exact List.map_take _ _ _
    have hs2 : keysSorted (mv.1.entries.map Prod.fst) = true := by
      rw [hkeys]
      exact keysSorted_take _ _ (insertSorted_sorted hsorted)
    have hne2 : mv.1.entries ≠ [] := by
      rw [hmv]
      simp only [LeafNode.moveHalfTo, hli1e]
      intro hcon
      have hlen := congrArg List.length hcon
      simp only [List.length_take, List.length_nil] at hlen
      have hpos : 0 < (insertSorted key v l.entries).length := by omega
      omega
    refine ⟨st₂, mv.1, hsplit, hget2, ?_, (keyAt_last_max _ hs2 hne2).1,
      (keyAt_last_max _ hs2 hne2).2⟩
    unfold InsertIntoLeaf
    simp only [hdesc, hleaf]
    rw [if_pos (by exact hover)]
    rw [hsplit]
    simp only []
    rw [hget2]
    simp only []
    cases hiip : InsertIntoParent st₂ leafId (mv.1.keyAt (mv.1.entries.length - 1)) st.nextPageId fuel with
    | none => rfl
    | some st₃ => rfl
  · intro st₀ oldId k newId fuel oldNode ip hold hpar hpp hover hfresh hnotchild
    have hparmem : oldNode.parentPageId ∈ st₀.pages.map Prod.fst :=
      getPage_some_mem_fst hpp
    have hnep : oldNode.parentPageId ≠ st₀.nextPageId := fun hh => hfresh (hh ▸ hparmem)
    set ip' := ip.insertNodeAfter oldId k newId with hip'
    set st₁ := { st₀ with pages := setPage st₀.pages oldNode.parentPageId (.internal ip') } with hst₁
    set fr : InternalNode := { parentPageId := ip'.parentPageId, maxSize := st₀.internalMax, entries := [] } with hfr
    set mv := ip'.moveHalfTo fr with hmv
    set st₂ := { st₀ with pages := reparentAll (setPage (addPage st₁.pages st₀.nextPageId (.internal mv.2.1)) oldNode.parentPageId (.internal mv.1)) mv.2.2 st₀.nextPageId, nextPageId := st₀.nextPageId + 1 } with hst₂
    have hget1 : getPage st₁.pages oldNode.parentPageId = some (.internal ip') :=
      getPage_setPage_self hpp
    have hsplit : SplitInternal st₁ oldNode.parentPageId = some (st₂, st₀.nextPageId) := by
      unfold SplitInternal
      rw [hget1]
    have hnotmoved : st₀.nextPageId ∉ mv.2.2 := by
      rw [hmv]
      intro hcon
      apply hnotchild
      obtain ⟨e, he, hee⟩ := List.mem_map.mp hcon
      exact List.mem_map.mpr ⟨e, List.mem_of_mem_drop he, hee⟩
    have hget2 : getPage st₂.pages st₀.nextPageId = some (.internal mv.2.1) := by
      rw [hst₂]
      show getPage (reparentAll _ mv.2.2 st₀.nextPageId) st₀.nextPageId = _
      rw [reparentAll_getPage_not_mem _ _ hnotmoved,
        getPage_setPage_ne (Ne.symm hnep)]
      apply getPage_addPage_self
      rw [getPage_setPage_ne (Ne.symm hnep)]
      exact getPage_none_of_not_mem hfresh
    refine ⟨st₂, mv.2.1, hsplit, hget2, by rw [hmv]; rfl, ?_⟩
    show InsertIntoParent st₀ oldId k newId (Nat.succ fuel) = _
    conv_lhs => unfold InsertIntoParent
    simp only [hold]
    rw [if_neg hpar]
    simp only [hpp]
    rw [if_pos (by exact hover)]
    rw [hsplit]
    simp only []
    rw [hget2]


/-- A full root leaf (`max_size = 2`) about to overflow. -/
def splitLeaf0 : LeafNode :=
  { parentPageId := INVALID_PAGE_ID, maxSize := 2,
    entries := [(1, 10), (2, 20)], nextPageId := INVALID_PAGE_ID }

/-- A one-leaf tree whose root leaf `splitLeaf0` is full. -/
def splitState : BPTState :=
  { indexName := "idx",
    pages := [(2, .leaf splitLeaf0)],
    rootPageId := 2,
    nextPageId := 3,
    header := [("idx", 2)],
    leafMax := 2,
    internalMax := 5 }

/-- Witness for C6: inserting key 3 into the full root leaf splits it; the
separator handed to `InsertIntoParent` is the largest key of the left leaf
after the move. -/
theorem split_separator_keys_witness :
    ∃ st₂ old',
      SplitLeaf { splitState with pages := setPage splitState.pages 2 (.leaf ((splitLeaf0.insert 3 30).1)) } 2 =
        some (st₂, splitState.nextPageId) ∧
      getPage st₂.pages 2 = some (.leaf old') ∧
      InsertIntoLeaf splitState 3 30 false 1 =
        (InsertIntoParent st₂ 2 (old'.keyAt (old'.entries.length - 1))
            splitState.nextPageId 1).map
          (fun st₃ => (st₃, splitLeaf0.entries.length != (splitLeaf0.insert 3 30).2, [])) ∧
      old'.keyAt (old'.entries.length - 1) ∈ old'.entries.map Prod.fst ∧
      (∀ k ∈ old'.entries.map Prod.fst,
        k ≤ old'.keyAt (old'.entries.length - 1)) :=
  split_separator_keys.1 splitState 3 30 false 1 2 [] splitLeaf0
    (by rfl) (by rfl) (by decide) (by decide) (by decide)


/-! ## Structural invariant and search correctness (C5) -/

/-- Exclusive lower bound check for subtree keys. -/
def inLB : Option Key → Key → Bool
  | none, _ => true
  | some b, k => b < k

/-- Inclusive upper bound check for subtree keys: with left-max separators a
key equal to a separator still lives in the left subtree. -/
def inUB : Option Key → Key → Bool
  | none, _ => true
  | some b, k => k ≤ b

/-- The separators of an internal node are strictly increasing and lie inside
the node's own key interval. -/
def sepsOK : Option Key → Option Key → List (Key × PageId) → Bool
  | _, _, [] => true
  | lo, hi, (k, _) :: rest => inLB lo k && inUB hi k && sepsOK (some k) hi rest

/-- The children of an internal node paired with their key intervals:
`child_i` is responsible for `(key_i, key_{i+1}]`. -/
def chainBounds : Option Key → Option Key → PageId → List (Key × PageId) →
    List (PageId × Option Key × Option Key)
  | lo, hi, c, [] => [(c, lo, hi)]
  | lo, hi, c, (k, c') :: rest => (c, lo, some k) :: chainBounds (some k) hi c' rest

/-- Well-formedness of the subtree rooted at a page (the §3 tree invariants):
the parent pointer names the actual parent, every level has the right node
kind (all leaves at equal depth `h`), keys are sorted and within the interval,
leaves respect capacity, internal nodes are nonempty and their separators
partition the interval. -/
def goodNode (pages : Pages) : Nat → PageId → PageId → Option Key → Option Key → Bool
  | 0, pid, parentId, lo, hi =>
    match getPage pages pid with
    | some (.leaf l) =>
      (l.parentPageId == parentId) &&
      keysSorted (l.entries.map Prod.fst) &&
      (l.entries.map Prod.fst).all (fun k => inLB lo k && inUB hi k) &&
      decide (l.entries.length ≤ l.maxSize)
    | _ => false
  | Nat.succ h, pid, parentId, lo, hi =>
    match getPage pages pid with
    | some (.internal ip) =>
      (ip.parentPageId == parentId) &&
      (match ip.entries with
       | [] => false
       | e0 :: rest =>
         sepsOK lo hi rest &&
         (chainBounds lo hi e0.2 rest).all
           (fun t => goodNode pages h t.1 pid t.2.1 t.2.2))
    | _ => false

/-- Every key stored in the subtree rooted at a page. -/
def subtreeKeys (pages : Pages) : Nat → PageId → List Key
  | 0, pid =>
    match getPage pages pid with
    | some (.leaf l) => l.entries.map Prod.fst
    | _ => []
  | Nat.succ h, pid =>
    match getPage pages pid with
    | some (.internal ip) => ip.entries.flatMap (fun e => subtreeKeys pages h e.2)
    | _ => []

theorem chainBounds_flatMap_keys (pages : Pages) (h : Nat) :
    ∀ (rest : List (Key × PageId)) (lo hi : Option Key) (c : PageId),
      (chainBounds lo hi c rest).flatMap (fun t => subtreeKeys pages h t.1) =
        subtreeKeys pages h c ++ rest.flatMap (fun e => subtreeKeys pages h e.2) := by
  intro rest
  induction rest with
  | nil => intro lo hi c; simp [chainBounds]
  | cons e rest' ih =>
    intro lo hi c
    obtain ⟨k, c'⟩ := e
    simp only [chainBounds, List.flatMap_cons]
    rw [ih]

theorem inUB_trans {hi : Option Key} {a b : Key} (h1 : inUB (some a) b = true)
    (h2 : inUB hi a = true) : inUB hi b = true := by
  cases hi with
  | none => rfl
  | some x =>
    simp only [inUB, decide_eq_true_eq] at h1 h2 ⊢
    exact le_trans h1 h2

theorem inLB_trans {lo : Option Key} {a b : Key} (h1 : inLB (some a) b = true)
    (h2 : inLB lo a = true) : inLB lo b = true := by
  cases lo with
  | none => rfl
  | some x =>
    simp only [inLB, decide_eq_true_eq] at h1 h2 ⊢
    exact lt_trans h2 h1

/-- The chain intervals refine the node's interval. -/
theorem chainBounds_sub :
    ∀ (rest : List (Key × PageId)) (lo hi : Option Key) (c : PageId)
      (t : PageId × Option Key × Option Key),
      sepsOK lo hi rest = true → t ∈ chainBounds lo hi c rest →
      (∀ k, inLB t.2.1 k = true → inLB lo k = true) ∧
      (∀ k, inUB t.2.2 k = true → inUB hi k = true) := by
  intro rest
  induction rest with
  | nil =>
    intro lo hi c t _ hmem
    simp only [chainBounds, List.mem_singleton] at hmem
    subst hmem
    exact ⟨fun k hk => hk, fun k hk => hk⟩
  | cons e rest' ih =>
    intro lo hi c t hseps hmem
    obtain ⟨k1, c1⟩ := e
    simp only [sepsOK, Bool.and_eq_true] at hseps
    simp only [chainBounds, List.mem_cons] at hmem
    rcases hmem with rfl | hmem'
    · refine ⟨fun k hk => hk, fun k hk => ?_⟩
      exact inUB_trans hk hseps.1.2
    · obtain ⟨hl, hu⟩ := ih (some k1) hi c1 t hseps.2 hmem'
      refine ⟨fun k hk => ?_, hu⟩
      exact inLB_trans (hl k hk) hseps.1.1

/-- Keys in a well-formed subtree lie inside its interval. -/
theorem goodNode_keys_bounds (pages : Pages) :
    ∀ (h : Nat) (pid parentId : PageId) (lo hi : Option Key),
      goodNode pages h pid parentId lo hi = true →
      ∀ k ∈ subtreeKeys pages h pid, inLB lo k = true ∧ inUB hi k = true := by
  intro h
  induction h with
  | zero =>
    intro pid parentId lo hi hg k hk
    unfold goodNode at hg
    unfold subtreeKeys at hk
    rcases hgp : getPage pages pid with _ | n
    · rw [hgp] at hg; exact Bool.noConfusion hg
    rw [hgp] at hg hk
    cases n with
    | internal ip => exact Bool.noConfusion hg
    | leaf l =>
      simp only [Bool.and_eq_true, List.all_eq_true] at hg
      have := hg.1.2 k hk
      simpa [Bool.and_eq_true] using this
  | succ h ih =>
    intro pid parentId lo hi hg k hk
    unfold goodNode at hg
    unfold subtreeKeys at hk
    rcases hgp : getPage pages pid with _ | n
    · rw [hgp] at hg; exact Bool.noConfusion hg
    rw [hgp] at hg hk
    cases n with
    | leaf l => exact Bool.noConfusion hg
    | internal ip =>
      simp only [] at hg hk
      rcases hes : ip.entries with _ | ⟨e0, rest⟩
      · rw [hes] at hg
        simp only [Bool.and_eq_true] at hg
        exact Bool.noConfusion hg.2
      · rw [hes] at hg hk
        simp only [Bool.and_eq_true, List.all_eq_true] at hg
        have hk' : k ∈ (chainBounds lo hi e0.2 rest).flatMap
            (fun t => subtreeKeys pages h t.1) := by
          rw [chainBounds_flatMap_keys]
          simpa using hk
        obtain ⟨t, htmem, htk⟩ := List.mem_flatMap.mp hk'
        obtain ⟨hbl, hbu⟩ := ih t.1 pid t.2.1 t.2.2 (hg.2.2 t htmem) k htk
        obtain ⟨htl, htu⟩ := chainBounds_sub rest lo hi e0.2 t hg.2.1 htmem
        exact ⟨htl k hbl, htu k hbu⟩


theorem subtreeKeys_succ_internal (pages : Pages) (h : Nat) (pid : PageId)
    (ip : InternalNode) (hgp : getPage pages pid = some (.internal ip)) :
    subtreeKeys pages (h + 1) pid =
      ip.entries.flatMap (fun e => subtreeKeys pages h e.2) := by
  conv_lhs => unfold subtreeKeys
  rw [hgp]

theorem goodNode_getPage {pages : Pages} {h : Nat} {pid parentId : PageId}
    {lo hi : Option Key} (hg : goodNode pages h pid parentId lo hi = true) :
    ∃ n, getPage pages pid = some n := by
  cases h with
  | zero =>
    unfold goodNode at hg
    rcases hgp : getPage pages pid with _ | n
    · rw [hgp] at hg
      exact Bool.noConfusion hg
    · exact ⟨n, rfl⟩
  | succ h' =>
    unfold goodNode at hg
    rcases hgp : getPage pages pid with _ | n
    · rw [hgp] at hg
      exact Bool.noConfusion hg
    · exact ⟨n, rfl⟩

/-- The child chosen by `InternalNode.lookup` is the well-formed child whose
interval contains the key, and the key occurs below the node iff it occurs
below that child. -/
theorem chain_lookup (pages : Pages) (h : Nat) (pid : PageId) (key : Key)
    (hi : Option Key) :
    ∀ (rest : List (Key × PageId)) (lo : Option Key) (c : PageId),
      sepsOK lo hi rest = true →
      (chainBounds lo hi c rest).all
        (fun t => goodNode pages h t.1 pid t.2.1 t.2.2) = true →
      inLB lo key = true → inUB hi key = true →
      ∃ lo' hi',
        goodNode pages h (internalLookupAux key c rest) pid lo' hi' = true ∧
        inLB lo' key = true ∧ inUB hi' key = true ∧
        (key ∈ (chainBounds lo hi c rest).flatMap
            (fun t => subtreeKeys pages h t.1) ↔
          key ∈ subtreeKeys pages h (internalLookupAux key c rest)) := by
  intro rest
  induction rest with
  | nil =>
    intro lo c _ hall hlo hhi
    simp only [chainBounds, List.all_cons, List.all_nil, Bool.and_true] at hall
    refine ⟨lo, hi, hall, hlo, hhi, ?_⟩
    simp [internalLookupAux, chainBounds]
  | cons e rest' ih =>
    intro lo c hseps hall hlo hhi
    obtain ⟨k1, c1⟩ := e
    simp only [sepsOK, Bool.and_eq_true] at hseps
    simp only [chainBounds, List.all_cons, Bool.and_eq_true] at hall
    unfold internalLookupAux
    by_cases hlt : k1 < key
    · rw [if_pos hlt]
      have hlo1 : inLB (some k1) key = true := by
        simp [inLB, hlt]
      obtain ⟨lo', hi', hg', hl', hh', hiff⟩ :=
        ih (some k1) c1 hseps.2 (by
          have := hall.2
          simpa [List.all_eq_true] using this) hlo1 hhi
      refine ⟨lo', hi', hg', hl', hh', ?_⟩
      have hnotc : key ∉ subtreeKeys pages h c := by
        intro hmem
        have hb := goodNode_keys_bounds pages h c pid lo (some k1) hall.1 key hmem
        simp only [inUB, decide_eq_true_eq] at hb
        exact absurd hlt (not_lt.mpr hb.2)
      simp only [chainBounds, List.flatMap_cons, List.mem_append]
      constructor
      · intro hk
        rcases hk with hk | hk
        · exact absurd hk hnotc
        · exact hiff.mp hk
      · intro hk
        exact Or.inr (hiff.mpr hk)
    · rw [if_neg hlt]
      refine ⟨lo, some k1, hall.1, hlo, by simp [inUB, not_lt.mp hlt], ?_⟩
      have hnottail : key ∉ (chainBounds (some k1) hi c1 rest').flatMap
          (fun t => subtreeKeys pages h t.1) := by
        intro hmem
        obtain ⟨t, htmem, htk⟩ := List.mem_flatMap.mp hmem
        have hgt : goodNode pages h t.1 pid t.2.1 t.2.2 = true := by
          have := hall.2
          simp only [List.all_eq_true] at this
          exact this t htmem
        have hb := (goodNode_keys_bounds pages h t.1 pid t.2.1 t.2.2 hgt key htk).1
        have htrans := (chainBounds_sub rest' (some k1) hi c1 t hseps.2 htmem).1
        have := htrans key hb
        simp only [inLB, decide_eq_true_eq] at this
        exact hlt this
      simp only [chainBounds, List.flatMap_cons, List.mem_append]
      constructor
      · intro hk
        rcases hk with hk | hk
        · exact hk
        · exact absurd hk hnottail
      · intro hk
        exact Or.inl hk

/-- Descent correctness: on a well-formed subtree whose interval contains the
key, a successful `GetLeafPageLoop` run ends at a leaf that is sorted and
within capacity, and that contains the key iff the subtree does. -/
theorem descend_to_leaf (st : BPTState) (key : Key) (txn : Bool) (mode : Nat) :
    ∀ (h : Nat) (fuel : Nat) (pid parentId : PageId) (lo hi : Option Key)
      (ws : List PageId) (leafId : PageId) (ws' : List PageId),
      goodNode st.pages h pid parentId lo hi = true →
      inLB lo key = true → inUB hi key = true →
      GetLeafPageLoop st key txn mode fuel pid ws = some (leafId, ws') →
      ∃ l, getPage st.pages leafId = some (.leaf l) ∧
        keysSorted (l.entries.map Prod.fst) = true ∧
        l.entries.length ≤ l.maxSize ∧
        (key ∈ l.entries.map Prod.fst ↔ key ∈ subtreeKeys st.pages h pid) := by
  intro h
  induction h with
  | zero =>
    intro fuel pid parentId lo hi ws leafId ws' hg hlo hhi hrun
    cases fuel with
    | zero => exact Option.noConfusion hrun
    | succ fuel =>
      unfold goodNode at hg
      rcases hgp : getPage st.pages pid with _ | n
      · rw [hgp] at hg
        exact Bool.noConfusion hg
      rw [hgp] at hg
      cases n with
      | internal ip => exact Bool.noConfusion hg
      | leaf l =>
        unfold GetLeafPageLoop at hrun
        rw [hgp] at hrun
        simp only [Option.some.injEq, Prod.mk.injEq] at hrun
        obtain ⟨rfl, rfl⟩ := hrun
        simp only [Bool.and_eq_true, beq_iff_eq, decide_eq_true_eq] at hg
        refine ⟨l, hgp, hg.1.1.2, hg.2, ?_⟩
        unfold subtreeKeys
        rw [hgp]
  | succ h ih =>
    intro fuel pid parentId lo hi ws leafId ws' hg hlo hhi hrun
    cases fuel with
    | zero => exact Option.noConfusion hrun
    | succ fuel =>
      unfold goodNode at hg
      rcases hgp : getPage st.pages pid with _ | n
      · rw [hgp] at hg
        exact Bool.noConfusion hg
      rw [hgp] at hg
      cases n with
      | leaf l => exact Bool.noConfusion hg
      | internal ip =>
        simp only [] at hg
        rcases hes : ip.entries with _ | ⟨e0, rest⟩
        · rw [hes] at hg
          simp only [Bool.and_eq_true] at hg
          exact Bool.noConfusion hg.2
        rw [hes] at hg
        simp only [Bool.and_eq_true] at hg
        have hlookup : ip.lookup key = internalLookupAux key e0.2 rest := by
          unfold InternalNode.lookup
          rw [hes]
        obtain ⟨lo', hi', hg', hl', hh', hiff⟩ :=
          chain_lookup st.pages h pid key hi rest lo e0.2 hg.2.1
            (by simpa [List.all_eq_true] using hg.2.2) hlo hhi
        obtain ⟨child, hchild⟩ := goodNode_getPage hg'
        unfold GetLeafPageLoop at hrun
        rw [hgp] at hrun
        simp only [] at hrun
        rw [hlookup] at hrun
        rw [hchild] at hrun
        simp only [] at hrun
        have hsub : subtreeKeys st.pages (h + 1) pid =
            (chainBounds lo hi e0.2 rest).flatMap
              (fun t => subtreeKeys st.pages h t.1) := by
          rw [subtreeKeys_succ_internal st.pages h pid ip hgp, hes,
            chainBounds_flatMap_keys]
          simp
        by_cases htxn : txn = true
        · rw [if_pos htxn] at hrun
          by_cases hm : mode = 0 ∨ mode = 1 ∨ mode = 2
          · rw [if_pos hm] at hrun
            obtain ⟨l, hgl, hs, hsz, hiff'⟩ := ih fuel _ pid lo' hi' _ leafId ws' hg' hl' hh' hrun
            exact ⟨l, hgl, hs, hsz, by rw [hsub]; exact hiff'.trans hiff.symm⟩
          · rw [if_neg hm] at hrun
            exact Option.noConfusion hrun
        · rw [if_neg htxn] at hrun
          obtain ⟨l, hgl, hs, hsz, hiff'⟩ := ih fuel _ pid lo' hi' ws leafId ws' hg' hl' hh' hrun
          exact ⟨l, hgl, hs, hsz, by rw [hsub]; exact hiff'.trans hiff.symm⟩


/-! ## The pair multiset of the page pool -/

/-- All pairs stored by a page list (the leaves' entries). -/
def pagesPairs (pages : Pages) : List (Key × RID) :=
  pages.flatMap (fun p => leafPairsOf p.2)

theorem treePairs_eq_pagesPairs (st : BPTState) :
    treePairs st = pagesPairs st.pages := rfl

theorem pagesPairs_append (A B : Pages) :
    pagesPairs (A ++ B) = pagesPairs A ++ pagesPairs B := by
  simp [pagesPairs]

theorem pagesPairs_cons (q : PageId × Node) (rest : Pages) :
    pagesPairs (q :: rest) = leafPairsOf q.2 ++ pagesPairs rest := by
  simp [pagesPairs]

theorem pagesPairs_addPage (pages : Pages) (pid : PageId) (n : Node) :
    pagesPairs (addPage pages pid n) = pagesPairs pages ++ leafPairsOf n := by
  simp [addPage, pagesPairs]

theorem addPage_map_fst (pages : Pages) (pid : PageId) (n : Node) :
    (addPage pages pid n).map Prod.fst = pages.map Prod.fst ++ [pid] := by
  simp [addPage]

theorem setPage_map_fst (pages : Pages) (pid : PageId) (n : Node) :
    (setPage pages pid n).map Prod.fst = pages.map Prod.fst := by
  induction pages with
  | nil => rfl
  | cons q rest ih =>
    by_cases hq : q.1 = pid
    · have h1 : (q.1 == pid) = true := beq_iff_eq.mpr hq
      simp only [setPage, List.map_cons, h1, if_true, List.cons.injEq]
      refine ⟨hq.symm, ?_⟩
      simpa [setPage] using ih
    · have h1 : (q.1 == pid) = false := beq_eq_false_iff_ne.mpr hq
      simp only [setPage, List.map_cons, h1, Bool.false_eq_true, if_false,
        List.cons.injEq, true_and]
      simpa [setPage] using ih

theorem setPage_decomp {pages : Pages} {pid : PageId} {n : Node}
    (hnd : (pages.map Prod.fst).Nodup) (hget : getPage pages pid = some n) :
    ∃ A B, pages = A ++ (pid, n) :: B ∧
      ∀ m, setPage pages pid m = A ++ (pid, m) :: B := by
  induction pages with
  | nil => simp [getPage] at hget
  | cons q rest ih =>
    obtain ⟨qa, qb⟩ := q
    simp only [List.map_cons, List.nodup_cons] at hnd
    rw [getPage_cons] at hget
    by_cases hq : qa = pid
    · have h1 : (qa == pid) = true := beq_iff_eq.mpr hq
      simp only [h1, if_true, Option.some.injEq] at hget
      refine ⟨[], rest, ?_, ?_⟩
      · rw [List.nil_append, hq, hget]
      · intro m
        simp only [setPage, List.map_cons, h1, if_true, List.nil_append,
          List.cons.injEq, true_and]
        have hmm : setPage rest pid m = rest :=
          setPage_not_mem (by rw [← hq]; exact hnd.1)
        simpa [setPage] using hmm
    · have h1 : (qa == pid) = false := beq_eq_false_iff_ne.mpr hq
      simp only [h1, Bool.false_eq_true, if_false] at hget
      obtain ⟨A, B, hAB, hset⟩ := ih hnd.2 hget
      refine ⟨(qa, qb) :: A, B, by rw [hAB]; rfl, ?_⟩
      intro m
      simp only [setPage, List.map_cons, h1, Bool.false_eq_true, if_false,
        List.cons_append, List.cons.injEq, true_and]
      have hmm := hset m
      simpa [setPage] using hmm

/-- Replacing the node at a present id swaps its pair contribution for the new
one, up to permutation. -/
theorem pagesPairs_setPage_perm {pages : Pages} {pid : PageId} {n : Node}
    (m : Node) (hnd : (pages.map Prod.fst).Nodup)
    (hget : getPage pages pid = some n) :
    (leafPairsOf n ++ pagesPairs (setPage pages pid m)).Perm
      (leafPairsOf m ++ pagesPairs pages) := by
  obtain ⟨A, B, hAB, hset⟩ := setPage_decomp hnd hget
  rw [hset m]
  conv_rhs => rw [hAB]
  rw [← Multiset.coe_eq_coe]
  simp only [pagesPairs_append, pagesPairs_cons, ← Multiset.coe_add]
  push_cast
  abel

theorem pagesPairs_setPage_internal {pages : Pages} {pid : PageId}
    {ip : InternalNode} (ip' : InternalNode)
    (hnd : (pages.map Prod.fst).Nodup)
    (hget : getPage pages pid = some (.internal ip)) :
    pagesPairs (setPage pages pid (.internal ip')) = pagesPairs pages := by
  obtain ⟨A, B, hAB, hset⟩ := setPage_decomp hnd hget
  rw [hset (.internal ip')]
  conv_rhs => rw [hAB]
  simp [pagesPairs_append, pagesPairs_cons, leafPairsOf]

theorem leafPairsOf_setParentPageId (n : Node) (p : PageId) :
    leafPairsOf (n.setParentPageId p) = leafPairsOf n := by
  cases n <;> rfl

theorem reparent_map_fst (pages : Pages) (cid p : PageId) :
    (reparent pages cid p).map Prod.fst = pages.map Prod.fst := by
  unfold reparent
  rcases getPage pages cid with _ | n
  · rfl
  · exact setPage_map_fst pages cid _

theorem pagesPairs_reparent (pages : Pages) (cid p : PageId)
    (hnd : (pages.map Prod.fst).Nodup) :
    pagesPairs (reparent pages cid p) = pagesPairs pages := by
  unfold reparent
  rcases hg : getPage pages cid with _ | n
  · rfl
  · simp only []
    obtain ⟨A, B, hAB, hset⟩ := setPage_decomp hnd hg
    rw [hset (n.setParentPageId p)]
    conv_rhs => rw [hAB]
    simp [pagesPairs_append, pagesPairs_cons, leafPairsOf_setParentPageId]

theorem reparentAll_map_fst :
    ∀ (cids : List PageId) (pages : Pages) (p : PageId),
      (reparentAll pages cids p).map Prod.fst = pages.map Prod.fst := by
  intro cids
  induction cids with
  | nil => intro pages p; rfl
  | cons c cs ih =>
    intro pages p
    show (reparentAll (reparent pages c p) cs p).map Prod.fst = _
    rw [ih, reparent_map_fst]

theorem pagesPairs_reparentAll :
    ∀ (cids : List PageId) (pages : Pages) (p : PageId),
      (pages.map Prod.fst).Nodup →
      pagesPairs (reparentAll pages cids p) = pagesPairs pages := by
  intro cids
  induction cids with
  | nil => intro pages p _; rfl
  | cons c cs ih =>
    intro pages p hnd
    show pagesPairs (reparentAll (reparent pages c p) cs p) = _
    rw [ih _ _ (by rw [reparent_map_fst]; exact hnd), pagesPairs_reparent _ _ _ hnd]

theorem not_mem_of_fresh {pages : Pages} {next : PageId}
    (hfresh : ∀ p ∈ pages.map Prod.fst, p < next) : next ∉ pages.map Prod.fst :=
  fun hmem => lt_irrefl next (hfresh next hmem)


theorem updateRootPageId_pages (st : BPTState) (b : Bool) :
    (UpdateRootPageId st b).pages = st.pages := by
  unfold UpdateRootPageId
  split <;> rfl

theorem updateRootPageId_nextPageId (st : BPTState) (b : Bool) :
    (UpdateRootPageId st b).nextPageId = st.nextPageId := by
  unfold UpdateRootPageId
  split <;> rfl

theorem nodup_snoc_fresh {pages : Pages} {next : PageId} (n : Node)
    (hnd : (pages.map Prod.fst).Nodup)
    (hfresh : ∀ p ∈ pages.map Prod.fst, p < next) :
    ((addPage pages next n).map Prod.fst).Nodup := by
  rw [addPage_map_fst, List.nodup_append]
  refine ⟨hnd, List.nodup_singleton _, ?_⟩
  intro a ha hb
  rw [List.mem_singleton] at hb
  subst hb
  exact lt_irrefl a (hfresh a ha)

theorem fresh_snoc {pages : Pages} {next : PageId}
    (hfresh : ∀ p ∈ pages.map Prod.fst, p < next) :
    ∀ p ∈ pages.map Prod.fst ++ [next], p < next + 1 := by
  intro p hp
  rw [List.mem_append, List.mem_singleton] at hp
  rcases hp with hp | hp
  · exact lt_trans (hfresh p hp) (lt_add_one next)
  · rw [hp]
    exact lt_add_one next

theorem nodup_rrap {pages : Pages} {next : PageId} (n : Node) (a b c d : PageId)
    (hnd : (pages.map Prod.fst).Nodup)
    (hfresh : ∀ p ∈ pages.map Prod.fst, p < next) :
    ((reparent (reparent (addPage pages next n) a b) c d).map Prod.fst).Nodup := by
  rw [reparent_map_fst, reparent_map_fst]
  exact nodup_snoc_fresh n hnd hfresh

theorem pagesPairs_rrap {pages : Pages} {next : PageId} (ip0 : InternalNode)
    (a b c d : PageId) (hnd : (pages.map Prod.fst).Nodup)
    (hfresh : ∀ p ∈ pages.map Prod.fst, p < next) :
    pagesPairs (reparent (reparent (addPage pages next (.internal ip0)) a b) c d) =
      pagesPairs pages := by
  have h1 := nodup_snoc_fresh (.internal ip0) hnd hfresh
  rw [pagesPairs_reparent _ _ _ (by rw [reparent_map_fst]; exact h1),
    pagesPairs_reparent _ _ _ h1, pagesPairs_addPage]
  simp [leafPairsOf]

/-- `SplitInternal` moves no pairs between leaves and keeps page ids distinct
and below the allocator cursor. -/
theorem splitInternal_pairs {st : BPTState} {nid : PageId} {st₂ : BPTState}
    {pid : PageId} (h : SplitInternal st nid = some (st₂, pid))
    (hnd : (st.pages.map Prod.fst).Nodup)
    (hfresh : ∀ p ∈ st.pages.map Prod.fst, p < st.nextPageId) :
    pagesPairs st₂.pages = pagesPairs st.pages ∧
      (st₂.pages.map Prod.fst).Nodup ∧
      ∀ p ∈ st₂.pages.map Prod.fst, p < st₂.nextPageId := by
  unfold SplitInternal at h
  rcases hg : getPage st.pages nid with _ | n
  · rw [hg] at h
    exact Option.noConfusion h
  rw [hg] at h
  cases n with
  | leaf l => exact Option.noConfusion h
  | internal ip =>
    simp only [] at h
    injection h with h2
    injection h2 with ha hb
    subst hb
    have hnidmem : nid ∈ st.pages.map Prod.fst :=
      List.mem_map.mpr ⟨(nid, .internal ip), getPage_mem hg, rfl⟩
    have hnidne : nid ≠ st.nextPageId := ne_of_lt (hfresh _ hnidmem)
    have hnd1 := nodup_snoc_fresh
      (.internal ((ip.moveHalfTo { parentPageId := ip.parentPageId, maxSize := st.internalMax, entries := [] }).2.1)) hnd hfresh
    have hnd2 : ((setPage (addPage st.pages st.nextPageId
        (.internal ((ip.moveHalfTo { parentPageId := ip.parentPageId, maxSize := st.internalMax, entries := [] }).2.1))) nid
        (.internal ((ip.moveHalfTo { parentPageId := ip.parentPageId, maxSize := st.internalMax, entries := [] }).1))).map Prod.fst).Nodup := by
      rw [setPage_map_fst]
      exact hnd1
    have hget1 : getPage (addPage st.pages st.nextPageId
        (.internal ((ip.moveHalfTo { parentPageId := ip.parentPageId, maxSize := st.internalMax, entries := [] }).2.1))) nid =
        some (.internal ip) := by
      rw [getPage_addPage_ne hnidne]
      exact hg
    subst ha
    refine ⟨?_, ?_, ?_⟩
    · show pagesPairs (reparentAll _ _ _) = _
      rw [pagesPairs_reparentAll _ _ _ hnd2,
        pagesPairs_setPage_internal _ hnd1 hget1, pagesPairs_addPage]
      simp [leafPairsOf]
    · show ((reparentAll _ _ _).map Prod.fst).Nodup
      rw [reparentAll_map_fst, setPage_map_fst]
      exact hnd1
    · show ∀ p ∈ (reparentAll _ _ _).map Prod.fst, p < st.nextPageId + 1
      rw [reparentAll_map_fst, setPage_map_fst, addPage_map_fst]
      exact fresh_snoc hfresh

/-- `InsertIntoParent` moves no pairs: it edits internal nodes, re-parents
children, and touches the header, but leaf entries are untouched; page ids
stay distinct and below the allocator cursor. -/
theorem insertIntoParent_pairs :
    ∀ (fuel : Nat) (st : BPTState) (oldId : PageId) (key : Key) (newId : PageId)
      (st' : BPTState),
      InsertIntoParent st oldId key newId fuel = some st' →
      (st.pages.map Prod.fst).Nodup →
      (∀ p ∈ st.pages.map Prod.fst, p < st.nextPageId) →
      pagesPairs st'.pages = pagesPairs st.pages ∧
        (st'.pages.map Prod.fst).Nodup ∧
        ∀ p ∈ st'.pages.map Prod.fst, p < st'.nextPageId := by
  intro fuel
  induction fuel with
  | zero =>
    intro st oldId key newId st' hrun
    exact Option.noConfusion hrun
  | succ fuel ih =>
    intro st oldId key newId st' hrun hnd hfresh
    unfold InsertIntoParent at hrun
    rcases hold : getPage st.pages oldId with _ | oldNode
    · rw [hold] at hrun
      exact Option.noConfusion hrun
    rw [hold] at hrun
    simp only [] at hrun
    by_cases hroot : oldNode.parentPageId = INVALID_PAGE_ID
    · rw [if_pos hroot] at hrun
      rw [updateRootPageId_pages] at hrun
      simp only [] at hrun
      have hnd3 := nodup_rrap
        (.internal { parentPageId := INVALID_PAGE_ID, maxSize := st.internalMax, entries := [] }) oldId st.nextPageId newId st.nextPageId hnd hfresh
      rcases hip : getPage (reparent (reparent (addPage st.pages st.nextPageId
          (.internal { parentPageId := INVALID_PAGE_ID, maxSize := st.internalMax, entries := [] })) oldId st.nextPageId) newId st.nextPageId)
          st.nextPageId with _ | nnode
      · rw [hip] at hrun
        exact Option.noConfusion hrun
      rw [hip] at hrun
      cases nnode with
      | leaf l => exact Option.noConfusion hrun
      | internal ipn =>
        simp only [] at hrun
        injection hrun with hrun
        subst hrun
        refine ⟨?_, ?_, ?_⟩
        · show pagesPairs (setPage _ _ _) = _
          rw [pagesPairs_setPage_internal _ hnd3 hip]
          exact pagesPairs_rrap _ oldId st.nextPageId newId st.nextPageId hnd hfresh
        · show ((setPage _ _ _).map Prod.fst).Nodup
          rw [setPage_map_fst]
          exact hnd3
        · simp only [updateRootPageId_nextPageId]
          show ∀ p ∈ (setPage _ _ _).map Prod.fst, p < st.nextPageId + 1
          rw [setPage_map_fst, reparent_map_fst, reparent_map_fst, addPage_map_fst]
          exact fresh_snoc hfresh
    · rw [if_neg hroot] at hrun
      rcases hpar : getPage st.pages oldNode.parentPageId with _ | pnode
      · rw [hpar] at hrun
        exact Option.noConfusion hrun
      rw [hpar] at hrun
      cases pnode with
      | leaf l => exact Option.noConfusion hrun
      | internal ip =>
        simp only [] at hrun
        by_cases hov : (ip.insertNodeAfter oldId key newId).entries.length >
            (ip.insertNodeAfter oldId key newId).maxSize
        · rw [if_pos hov] at hrun
          rcases hsi : SplitInternal { st with pages := setPage st.pages oldNode.parentPageId (.internal (ip.insertNodeAfter oldId key newId)) } oldNode.parentPageId with _ | r
          · rw [hsi] at hrun
            exact Option.noConfusion hrun
          obtain ⟨st₂, newIpId⟩ := r
          rw [hsi] at hrun
          simp only [] at hrun
          have hnd₁ : ((setPage st.pages oldNode.parentPageId
              (.internal (ip.insertNodeAfter oldId key newId))).map Prod.fst).Nodup := by
            rw [setPage_map_fst]
            exact hnd
          have hfresh₁ : ∀ p ∈ (setPage st.pages oldNode.parentPageId
              (.internal (ip.insertNodeAfter oldId key newId))).map Prod.fst,
              p < st.nextPageId := by
            rw [setPage_map_fst]
            exact hfresh
          obtain ⟨hp₂, hnd₂, hfr₂⟩ := splitInternal_pairs hsi hnd₁ hfresh₁
          simp only [] at hp₂
          rcases hni : getPage st₂.pages newIpId with _ | nnode
          · rw [hni] at hrun
            exact Option.noConfusion hrun
          rw [hni] at hrun
          cases nnode with
          | leaf l => exact Option.noConfusion hrun
          | internal newIp =>
            simp only [] at hrun
            obtain ⟨hpa, hpb, hpc⟩ :=
              ih st₂ oldNode.parentPageId (newIp.keyAt 0) newIpId st' hrun hnd₂ hfr₂
            refine ⟨?_, hpb, hpc⟩
            rw [hpa, hp₂]
            exact pagesPairs_setPage_internal _ hnd hpar
        · rw [if_neg hov] at hrun
          injection hrun with hrun
          subst hrun
          refine ⟨?_, ?_, ?_⟩
          · exact pagesPairs_setPage_internal _ hnd hpar
          · show ((setPage st.pages oldNode.parentPageId
                (.internal (ip.insertNodeAfter oldId key newId))).map Prod.fst).Nodup
            rw [setPage_map_fst]
            exact hnd
          · show ∀ p ∈ (setPage st.pages oldNode.parentPageId
                (.internal (ip.insertNodeAfter oldId key newId))).map Prod.fst,
                p < st.nextPageId
            rw [setPage_map_fst]
            exact hfresh


theorem updateRootPageId_rootPageId (st : BPTState) (b : Bool) :
    (UpdateRootPageId st b).rootPageId = st.rootPageId := by
  unfold UpdateRootPageId
  split <;> rfl

/-- Every key of a reachable subtree is stored in some leaf page of the pool. -/
theorem subtreeKeys_sub_pagesPairs (pages : Pages) :
    ∀ (h : Nat) (pid : PageId) (k : Key),
      k ∈ subtreeKeys pages h pid → k ∈ (pagesPairs pages).map Prod.fst := by
  intro h
  induction h with
  | zero =>
    intro pid k hk
    unfold subtreeKeys at hk
    rcases hg : getPage pages pid with _ | n
    · rw [hg] at hk
      simp at hk
    rw [hg] at hk
    cases n with
    | internal ip => simp at hk
    | leaf l =>
      simp only [] at hk
      obtain ⟨e, he, hek⟩ := List.mem_map.mp hk
      refine List.mem_map.mpr ⟨e, ?_, hek⟩
      refine List.mem_flatMap.mpr ⟨(pid, .leaf l), getPage_mem hg, ?_⟩
      simpa [leafPairsOf] using he
  | succ h ih =>
    intro pid k hk
    unfold subtreeKeys at hk
    rcases hg : getPage pages pid with _ | n
    · rw [hg] at hk
      simp at hk
    rw [hg] at hk
    cases n with
    | leaf l => simp at hk
    | internal ip =>
      simp only [] at hk
      obtain ⟨e, _, hek⟩ := List.mem_flatMap.mp hk
      exact ih e.2 k hek

theorem perm_cancel_left {α : Type} {A P Q : List α} (h : (A ++ P).Perm (A ++ Q)) :
    P.Perm Q := by
  rw [← Multiset.coe_eq_coe] at h ⊢
  rw [← Multiset.coe_add, ← Multiset.coe_add] at h
  exact add_left_cancel h

/-- `SplitLeaf` only redistributes the split leaf's entries between the two
leaves: the pool's pair multiset is unchanged, ids stay distinct and below the
allocator cursor. -/
theorem splitLeaf_pairs {st : BPTState} {nid : PageId} {st₂ : BPTState}
    {pid : PageId} (h : SplitLeaf st nid = some (st₂, pid))
    (hnd : (st.pages.map Prod.fst).Nodup)
    (hfresh : ∀ p ∈ st.pages.map Prod.fst, p < st.nextPageId) :
    (pagesPairs st₂.pages).Perm (pagesPairs st.pages) ∧
      (st₂.pages.map Prod.fst).Nodup ∧
      ∀ p ∈ st₂.pages.map Prod.fst, p < st₂.nextPageId := by
  unfold SplitLeaf at h
  rcases hg : getPage st.pages nid with _ | n
  · rw [hg] at h
    exact Option.noConfusion h
  rw [hg] at h
  cases n with
  | internal ip => exact Option.noConfusion h
  | leaf l =>
    simp only [] at h
    injection h with h2
    injection h2 with ha hb
    subst hb
    have hnidmem : nid ∈ st.pages.map Prod.fst :=
      List.mem_map.mpr ⟨(nid, .leaf l), getPage_mem hg, rfl⟩
    have hnidne : nid ≠ st.nextPageId := ne_of_lt (hfresh _ hnidmem)
    have hnd1 := nodup_snoc_fresh
      (.leaf ((l.moveHalfTo { parentPageId := l.parentPageId, maxSize := st.leafMax, entries := [], nextPageId := INVALID_PAGE_ID } st.nextPageId).2)) hnd hfresh
    have hget1 : getPage (addPage st.pages st.nextPageId
        (.leaf ((l.moveHalfTo { parentPageId := l.parentPageId, maxSize := st.leafMax, entries := [], nextPageId := INVALID_PAGE_ID } st.nextPageId).2))) nid =
        some (.leaf l) := by
      rw [getPage_addPage_ne hnidne]
      exact hg
    subst ha
    refine ⟨?_, ?_, ?_⟩
    · show (pagesPairs (setPage _ _ _)).Perm _
      have h1 := pagesPairs_setPage_perm
        (.leaf ((l.moveHalfTo { parentPageId := l.parentPageId, maxSize := st.leafMax, entries := [], nextPageId := INVALID_PAGE_ID } st.nextPageId).1)) hnd1 hget1
      simp only [leafPairsOf, LeafNode.moveHalfTo, pagesPairs_addPage,
        List.nil_append] at h1
      simp only [LeafNode.moveHalfTo]
      have h5 : (List.take ((l.entries.length + 1) / 2) l.entries ++
          (pagesPairs st.pages ++ List.drop ((l.entries.length + 1) / 2) l.entries)).Perm
          (l.entries ++ pagesPairs st.pages) := by
        have ha : (List.take ((l.entries.length + 1) / 2) l.entries ++
            (pagesPairs st.pages ++ List.drop ((l.entries.length + 1) / 2) l.entries)).Perm
            (List.take ((l.entries.length + 1) / 2) l.entries ++
              (List.drop ((l.entries.length + 1) / 2) l.entries ++ pagesPairs st.pages)) :=
          List.Perm.append_left _ List.perm_append_comm
        have hb : List.take ((l.entries.length + 1) / 2) l.entries ++
            (List.drop ((l.entries.length + 1) / 2) l.entries ++ pagesPairs st.pages) =
            l.entries ++ pagesPairs st.pages := by
          rw [← List.append_assoc, List.take_append_drop]
        rw [hb] at ha
        exact ha
      exact perm_cancel_left (h1.trans h5)
    · show ((setPage _ _ _).map Prod.fst).Nodup
      rw [setPage_map_fst]
      exact hnd1
    · show ∀ p ∈ (setPage _ _ _).map Prod.fst, p < st.nextPageId + 1
      rw [setPage_map_fst, addPage_map_fst]
      exact fresh_snoc hfresh

/-- Writing back a leaf after inserting a fresh key adds exactly that pair to
the pool's pair multiset. -/
theorem setLeaf_insert_pairs_perm {pages : Pages} {pid : PageId} {l : LeafNode}
    {key : Key} {v : RID} (hnd : (pages.map Prod.fst).Nodup)
    (hgl : getPage pages pid = some (.leaf l))
    (hk : key ∉ l.entries.map Prod.fst) :
    (pagesPairs (setPage pages pid (.leaf (l.insert key v).1))).Perm
      ((key, v) :: pagesPairs pages) := by
  have h1 := pagesPairs_setPage_perm (.leaf (l.insert key v).1) hnd hgl
  simp only [leafPairsOf] at h1
  have h2 : ((l.insert key v).1.entries).Perm ((key, v) :: l.entries) :=
    insertSorted_perm_of_not_mem hk
  have h5 : ((l.insert key v).1.entries ++ pagesPairs pages).Perm
      (l.entries ++ ((key, v) :: pagesPairs pages)) := by
    have ha : ((l.insert key v).1.entries ++ pagesPairs pages).Perm
        ((key, v) :: (l.entries ++ pagesPairs pages)) := h2.append_right _
    exact ha.trans List.perm_middle.symm
  exact perm_cancel_left (h1.trans h5)


/-- `InsertIntoLeaf` on a well-formed non-empty tree: the returned flag is
false exactly when the key was already stored, a duplicate leaves the state
untouched, and a fresh key adds exactly the new pair to the stored multiset. -/
theorem insertIntoLeaf_spec
    (st : BPTState) (key : Key) (v : RID) (txn : Bool) (fuel h : Nat)
    (st' : BPTState) (b : Bool) (ws : List PageId)
    (hnd : (st.pages.map Prod.fst).Nodup)
    (hfresh : ∀ p ∈ st.pages.map Prod.fst, p < st.nextPageId)
    (hgood : goodNode st.pages h st.rootPageId INVALID_PAGE_ID none none = true)
    (hne : ¬ st.rootPageId = INVALID_PAGE_ID)
    (hrun : InsertIntoLeaf st key v txn fuel = some (st', b, ws)) :
    (b = false ↔ key ∈ subtreeKeys st.pages h st.rootPageId) ∧
      (key ∈ subtreeKeys st.pages h st.rootPageId → st' = st) ∧
      (key ∉ subtreeKeys st.pages h st.rootPageId →
        (pagesPairs st'.pages).Perm ((key, v) :: pagesPairs st.pages)) := by
  unfold InsertIntoLeaf at hrun
  unfold GetLeafPage at hrun
  rw [if_neg hne] at hrun
  rcases hloop : GetLeafPageLoop st key txn 1 fuel st.rootPageId
      (if txn then [st.rootPageId] else []) with _ | res
  · rw [hloop] at hrun
    exact Option.noConfusion hrun
  obtain ⟨leafId, ws₀⟩ := res
  rw [hloop] at hrun
  simp only [Option.map] at hrun
  obtain ⟨l, hgl, hsorted, hlen, hiff⟩ :=
    descend_to_leaf st key txn 1 h fuel st.rootPageId INVALID_PAGE_ID none none
      (if txn then [st.rootPageId] else []) leafId ws₀ hgood rfl rfl hloop
  rw [hgl] at hrun
  simp only [] at hrun
  by_cases hk : key ∈ l.entries.map Prod.fst
  · have heq : insertSorted key v l.entries = l.entries :=
      insertSorted_eq_of_mem hsorted hk
    have h2 : (l.insert key v).2 = l.entries.length := by
      show (insertSorted key v l.entries).length = l.entries.length
      rw [heq]
    have hov : ¬ ((l.insert key v).2 > l.maxSize) := by
      rw [h2]
      exact not_lt.mpr hlen
    rw [if_neg hov] at hrun
    injection hrun with hrun
    injection hrun with h1 hrest
    injection hrest with hb hws
    have hbf : b = false := by
      rw [← hb, h2]
      simp
    have hl1 : (l.insert key v).1 = l := by
      show { l with entries := insertSorted key v l.entries } = l
      rw [heq]
    have hst : st' = st := by
      rw [← h1, hl1, setPage_self hnd hgl]
    exact ⟨iff_of_true hbf (hiff.mp hk), fun _ => hst,
      fun hnot => absurd (hiff.mp hk) hnot⟩
  · have hlen2 : (l.insert key v).2 = l.entries.length + 1 := by
      show (insertSorted key v l.entries).length = _
      rw [(insertSorted_perm_of_not_mem (v := v) hk).length_eq]
      rfl
    have hbne : (l.entries.length != (l.insert key v).2) = true := by
      rw [hlen2]
      simp
    have hknotsub : key ∉ subtreeKeys st.pages h st.rootPageId :=
      fun hs => hk (hiff.mpr hs)
    by_cases hov : (l.insert key v).2 > l.maxSize
    · rw [if_pos hov] at hrun
      rcases hsl : SplitLeaf { st with pages := setPage st.pages leafId (.leaf (l.insert key v).1) } leafId with _ | r
      · rw [hsl] at hrun
        exact Option.noConfusion hrun
      obtain ⟨st₂, newId⟩ := r
      rw [hsl] at hrun
      simp only [] at hrun
      rcases hol : getPage st₂.pages leafId with _ | onode
      · rw [hol] at hrun
        exact Option.noConfusion hrun
      rw [hol] at hrun
      cases onode with
      | internal ip => exact Option.noConfusion hrun
      | leaf old' =>
        simp only [] at hrun
        rcases hiip : InsertIntoParent st₂ leafId
            (old'.keyAt (old'.entries.length - 1)) newId fuel with _ | st₃
        · rw [hiip] at hrun
          exact Option.noConfusion hrun
        rw [hiip] at hrun
        simp only [] at hrun
        injection hrun with hrun
        injection hrun with h1 hrest
        injection hrest with hb hws
        have hnd₁ : ((setPage st.pages leafId
            (.leaf (l.insert key v).1)).map Prod.fst).Nodup := by
          rw [setPage_map_fst]
          exact hnd
        have hfresh₁ : ∀ p ∈ (setPage st.pages leafId
            (.leaf (l.insert key v).1)).map Prod.fst, p < st.nextPageId := by
          rw [setPage_map_fst]
          exact hfresh
        obtain ⟨hp₂, hnd₂, hfr₂⟩ := splitLeaf_pairs hsl hnd₁ hfresh₁
        obtain ⟨hp₃, hx₁, hx₂⟩ :=
          insertIntoParent_pairs fuel st₂ leafId _ newId st₃ hiip hnd₂ hfr₂
        have hbt : b = true := by
          rw [← hb]
          exact hbne
        refine ⟨?_, ?_, ?_⟩
        · rw [hbt]
          exact iff_of_false (by simp) hknotsub
        · intro hmem
          exact absurd hmem hknotsub
        · intro _
          rw [← h1, hp₃]
          exact hp₂.trans (setLeaf_insert_pairs_perm hnd hgl hk)
    · rw [if_neg hov] at hrun
      injection hrun with hrun
      injection hrun with h1 hrest
      injection hrest with hb hws
      have hbt : b = true := by
        rw [← hb]
        exact hbne
      refine ⟨?_, ?_, ?_⟩
      · rw [hbt]
        exact iff_of_false (by simp) hknotsub
      · intro hmem
        exact absurd hmem hknotsub
      · intro _
        rw [← h1]
        exact setLeaf_insert_pairs_perm hnd hgl hk


/-- C5: `Insert` returns `false` exactly when the key is already present.  On
a well-formed tree (distinct fresh page ids; a well-formed reachable tree
below the root that accounts for every stored key when non-empty; no stored
pairs when empty), a duplicate insert returns `false` and leaves the state —
in particular the leaf and its size — unchanged, while a fresh key returns
`true` and adds exactly the pair `(key, value)` to the stored multiset. -/
theorem insert_duplicate_iff
    (st : BPTState) (key : Key) (v : RID) (txn : Bool) (fuel h : Nat)
    (st' : BPTState) (b : Bool) (ws : List PageId)
    (hnd : (st.pages.map Prod.fst).Nodup)
    (hfresh : ∀ p ∈ st.pages.map Prod.fst, p < st.nextPageId)
    (hnpos : 0 ≤ st.nextPageId)
    (hgood : ¬ st.rootPageId = INVALID_PAGE_ID →
      goodNode st.pages h st.rootPageId INVALID_PAGE_ID none none = true)
    (hcomp : ¬ st.rootPageId = INVALID_PAGE_ID →
      ∀ k ∈ treeKeys st, k ∈ subtreeKeys st.pages h st.rootPageId)
    (hjunk : st.rootPageId = INVALID_PAGE_ID → treePairs st = [])
    (hrun : Insert st key v txn fuel = some (st', b, ws)) :
    (b = false ↔ key ∈ treeKeys st) ∧
      (key ∈ treeKeys st → st' = st) ∧
      (key ∉ treeKeys st → (treePairs st').Perm ((key, v) :: treePairs st)) := by
  unfold Insert at hrun
  by_cases hroot : st.rootPageId = INVALID_PAGE_ID
  · rw [if_pos hroot] at hrun
    rcases hsnt : StartNewTree st key v txn fuel with _ | r
    · rw [hsnt] at hrun
      exact Option.noConfusion hrun
    obtain ⟨st₁', b₁', ws₁'⟩ := r
    rw [hsnt] at hrun
    simp only [Option.map] at hrun
    injection hrun with hrun
    injection hrun with h1 hrest
    injection hrest with hb hws
    have hkeys : treeKeys st = [] := by
      unfold treeKeys
      rw [hjunk hroot]
      rfl
    have hknot : key ∉ treeKeys st := by
      rw [hkeys]
      exact List.not_mem_nil key
    refine ⟨by rw [← hb]; exact iff_of_false (by simp) hknot,
      fun hmem => absurd hmem hknot, ?_⟩
    intro _
    unfold StartNewTree at hsnt
    simp only [] at hsnt
    rw [if_pos hroot] at hsnt
    have hnosub : ∀ k : Key, k ∉ subtreeKeys (addPage st.pages st.nextPageId (.leaf { parentPageId := INVALID_PAGE_ID, maxSize := st.leafMax, entries := [], nextPageId := INVALID_PAGE_ID })) 0 st.nextPageId := by
      intro k hk2
      unfold subtreeKeys at hk2
      rw [getPage_addPage_self
        (getPage_none_of_not_mem (not_mem_of_fresh hfresh))] at hk2
      simp at hk2
    obtain ⟨w1, w2, w3⟩ := insertIntoLeaf_spec _ key v txn fuel 0 st₁' b₁' ws₁'
      (by rw [updateRootPageId_pages]
          exact nodup_snoc_fresh _ hnd hfresh)
      (by rw [updateRootPageId_pages, updateRootPageId_nextPageId]
          show ∀ p ∈ (addPage st.pages st.nextPageId (.leaf { parentPageId := INVALID_PAGE_ID, maxSize := st.leafMax, entries := [], nextPageId := INVALID_PAGE_ID })).map Prod.fst, p < st.nextPageId + 1
          rw [addPage_map_fst]
          exact fresh_snoc hfresh)
      (by rw [updateRootPageId_pages, updateRootPageId_rootPageId]
          show goodNode (addPage st.pages st.nextPageId (.leaf { parentPageId := INVALID_PAGE_ID, maxSize := st.leafMax, entries := [], nextPageId := INVALID_PAGE_ID })) 0 st.nextPageId INVALID_PAGE_ID none none = true
          unfold goodNode
          rw [getPage_addPage_self
            (getPage_none_of_not_mem (not_mem_of_fresh hfresh))]
          simp [keysSorted])
      (by rw [updateRootPageId_rootPageId]
          show ¬ st.nextPageId = INVALID_PAGE_ID
          intro hcontra
          rw [hcontra] at hnpos
          exact absurd hnpos (by norm_num [INVALID_PAGE_ID]))
      hsnt
    have hw := w3 (hnosub key)
    simp only [updateRootPageId_pages] at hw
    have hpg : pagesPairs (addPage st.pages st.nextPageId (.leaf { parentPageId := INVALID_PAGE_ID, maxSize := st.leafMax, entries := [], nextPageId := INVALID_PAGE_ID })) = pagesPairs st.pages := by
      rw [pagesPairs_addPage]
      simp [leafPairsOf]
    rw [hpg] at hw
    rw [← h1]
    exact hw
  · rw [if_neg hroot] at hrun
    obtain ⟨w1, w2, w3⟩ := insertIntoLeaf_spec st key v txn fuel h st' b ws
      hnd hfresh (hgood hroot) hroot hrun
    have hmem_iff : key ∈ treeKeys st ↔
        key ∈ subtreeKeys st.pages h st.rootPageId :=
      ⟨hcomp hroot key,
       fun hs => subtreeKeys_sub_pagesPairs st.pages h st.rootPageId key hs⟩
    exact ⟨w1.trans hmem_iff.symm, fun hm => w2 (hmem_iff.mp hm),
      fun hm => w3 (fun hs => hm (hmem_iff.mpr hs))⟩

/-- Witness for C5: re-inserting key 1 into the one-leaf tree that already
stores it returns `false` and leaves the tree unchanged. -/
theorem insert_duplicate_iff_witness :
    (false = false ↔ (1 : Key) ∈ treeKeys oneLeafState) ∧
      ((1 : Key) ∈ treeKeys oneLeafState → oneLeafState = oneLeafState) ∧
      ((1 : Key) ∉ treeKeys oneLeafState →
        (treePairs oneLeafState).Perm ((1, 99) :: treePairs oneLeafState)) :=
  insert_duplicate_iff oneLeafState 1 99 false 3 0 oneLeafState false []
    (by decide) (by decide) (by decide) (fun _ => by decide)
    (fun _ => by decide) (fun hcontra => absurd hcontra (by decide)) (by decide)

end BPTree
